import Mathlib

/-!
Verification of the query-conversion core of psycopg (`psycopg/_queries.py`).

Queries are modelled as lists of byte values (`List Nat`); placeholder names
are kept as raw byte lists (the `encoding`-based decode step is not modelled,
names are compared as byte sequences).  All functions are executable and follow
the Python source line by line; Python exceptions are modelled with `Except`.

Relevant byte values: 10 = newline, 32 = space, 36 = dollar, 37 = percent,
40 = left paren, 41 = right paren, 98 = b, 115 = s, 116 = t.
-/

namespace Psycopg

/-- PyFormat: the format requested by a placeholder (`_enums.PyFormat`). -/
inductive PyFormat where
  | AUTO
  | TEXT
  | BINARY
deriving DecidableEq

/-- The `item` field of a `QueryPart`: a 0-based positional index (Python `int`)
or a placeholder name (Python `str`, kept here as bytes). -/
inductive Item where
  | pos (i : Nat)
  | name (nm : List Nat)
deriving DecidableEq

/-- QueryPart named tuple of `_queries.py`. -/
structure QueryPart where
  pre : List Nat
  item : Item
  format : PyFormat
deriving DecidableEq

/-- A regex match of `_re_placeholder`: the matched bytes (`m.group(0)`) and
the optional parenthesized name (`m.group(1)`). -/
structure PhMatch where
  ph : List Nat
  group1 : Option (List Nat)
deriving DecidableEq

/-- The errors raised by the conversion pipeline (`ProgrammingError` /
`TypeError` messages are identified by constructor; `assertFail` models a
failing `assert` statement, which is unreachable on well-formed inputs). -/
inductive QueryError where
  | incompletePlaceholder
  | percentSpace
  | unsupportedPlaceholder (ph : List Nat)
  | mixedPlaceholders
  | conflictingFormat (nm : List Nat)
  | countMismatch (expected : Int) (got : Nat)
  | namedRequireMapping
  | positionalRequireSequence
  | missingParams (nms : List (List Nat))
  | assertFail
deriving DecidableEq

/-- Decimal digits of a number, as bytes (`b"%d" % n`). -/
def natToDecimal (n : Nat) : List Nat :=
  (Nat.toDigits 10 n).map Char.toNat

/-- Last byte of a byte string (`ph[-1:]`; `ph` is never empty where used). -/
def lastByte : List Nat → Nat
  | [] => 0
  | [c] => c
  | _ :: rest => lastByte rest

/-- The `_ph_to_fmt` table: `s` → AUTO, `t` → TEXT, `b` → BINARY. -/
def ph_to_fmt (c : Nat) : PyFormat :=
  if c = 115 then .AUTO else if c = 116 then .TEXT else .BINARY

/-- Consume `[^)]+ \)`: split at the first right paren, returning the bytes
before it and the remainder after it (`none` when no right paren exists).
The remainder is strictly shorter than the input. -/
def splitAtRParen : (l : List Nat) → Option (List Nat × {r : List Nat // r.length < l.length})
  | [] => none
  | c :: rest =>
    if c = 41 then
      some ([], ⟨rest, by simp only [List.length_cons]; exact Nat.lt_succ_self _⟩)
    else
      match splitAtRParen rest with
      | some (nm, ⟨r, hr⟩) =>
        some (c :: nm, ⟨r, by simp only [List.length_cons]; omega⟩)
      | none => none

/-- Try to match `_re_placeholder` right after a `%`, on the bytes `rest` that
follow the `%`.  First alternative: `\( ([^)]+) \) .` (a parenthesized
nonempty name followed by one format byte); second alternative: `.` (any
single byte).  As in Python `re` without DOTALL, `.` does not match a
newline, while the negated class `[^)]` does.  Returns the match (with
`group(0)` including the leading `%`) and the bytes after the match. -/
def tryMatch : (rest : List Nat) → Option (PhMatch × {rs : List Nat // rs.length < rest.length})
  | [] => none
  | c :: rs =>
    let fb : Option (PhMatch × {x : List Nat // x.length < (c :: rs).length}) :=
      if c = 10 then none
      else some (⟨[37, c], none⟩, ⟨rs, by simp only [List.length_cons]; exact Nat.lt_succ_self _⟩)
    if c = 40 then
      match splitAtRParen rs with
      | some (nm, ⟨fmt :: rs2, hlen⟩) =>
        if nm = [] ∨ fmt = 10 then fb
        else
          some (⟨37 :: 40 :: (nm ++ [41, fmt]), some nm⟩,
            ⟨rs2, by simp only [List.length_cons] at hlen ⊢; omega⟩)
      | some (_, ⟨[], _⟩) => fb
      | none => fb
    else fb

/-- Prepend a byte to the first pending fragment: to the `pre` of the first
pair when one exists, otherwise to the trailing fragment. -/
def consPre (c : Nat) : List (List Nat × PhMatch) × List Nat → List (List Nat × PhMatch) × List Nat
  | ([], trail) => ([], c :: trail)
  | ((pre, m) :: ps, trail) => ((c :: pre, m) :: ps, trail)

/-- `_re_placeholder.finditer(query)` together with the fragment extraction of
`_split_query`: returns the list of (preceding fragment, match) pairs and the
trailing fragment after the last match.  A `%` at which no match starts (end
of input or `%` followed by a newline) is part of the surrounding fragment. -/
def findMatches (q : List Nat) : List (List Nat × PhMatch) × List Nat :=
  match q with
  | [] => ([], [])
  | c :: rest =>
    if c = 37 then
      match tryMatch rest with
      | some (m, ⟨rs, _⟩) => (([], m) :: (findMatches rs).1, (findMatches rs).2)
      | none => consPre c (findMatches rest)
    else consPre c (findMatches rest)
termination_by q.length
decreasing_by
  all_goals (simp only [List.length_cons]; omega)

/-- The validation loop of `_split_query`: walks the (fragment, match) pairs,
collapsing or preserving `%%`, rejecting malformed placeholders, numbering
positional placeholders by their position in the result list (`i`), and
rejecting mixed positional/named placeholders (`phtype`).  The final part is
the sentinel `QueryPart(trail, 0, AUTO)`. -/
def processParts (collapse : Bool) :
    List (List Nat × PhMatch) → List Nat → Nat → Option Bool → List Nat →
    Except QueryError (List QueryPart)
  | [], trail, _, _, acc => .ok [⟨acc ++ trail, .pos 0, .AUTO⟩]
  | (pre, m) :: rest, trail, i, phtype, acc =>
    if m.ph = [37, 37] then
      processParts collapse rest trail i phtype
        (acc ++ pre ++ (if collapse then [37] else [37, 37]))
    else if m.ph = [37, 40] then
      .error .incompletePlaceholder
    else if m.ph = [37, 32] then
      .error .percentSpace
    else if lastByte m.ph ≠ 115 ∧ lastByte m.ph ≠ 98 ∧ lastByte m.ph ≠ 116 then
      .error (.unsupportedPlaceholder m.ph)
    else
      let item : Item := match m.group1 with
        | some nm => .name nm
        | none => .pos i
      let isNamed : Bool := match m.group1 with
        | some _ => true
        | none => false
      if (match phtype with | some b => b != isNamed | none => false) then
        .error .mixedPlaceholders
      else
        (processParts collapse rest trail (i + 1) (some isNamed) []).map
          (fun rv => ⟨acc ++ pre, item, ph_to_fmt (lastByte m.ph)⟩ :: rv)

/-- `_split_query` (the encoding argument is not modelled; names stay bytes). -/
def split_query (collapse_double_percent : Bool) (q : List Nat) :
    Except QueryError (List QueryPart) :=
  processParts collapse_double_percent (findMatches q).1 (findMatches q).2 0 none []

/-- The `pre` of the last part (`parts[-1].pre`; `[]` on an empty list). -/
def lastPre : List QueryPart → List Nat
  | [] => []
  | [p] => p.pre
  | _ :: ps => lastPre ps

/-- First-match association-list lookup (models Python `dict` lookup; keys are
byte strings). -/
def lookupKV (kvs : List (List Nat × α)) (nm : List Nat) : Option α :=
  match kvs with
  | [] => none
  | (k, v) :: rest => if k = nm then some v else lookupKV rest nm

/-- The positional loop of `_query2pg_nocache` over `parts[:-1]`: each part
contributes its `pre` and the marker `b"$%d" % (item + 1)`; formats are
collected in occurrence order. -/
def posChunks : List QueryPart → Except QueryError (List Nat × List PyFormat)
  | [] => .ok ([], [])
  | p :: ps =>
    match p.item with
    | .name _ => .error .assertFail
    | .pos j =>
      (posChunks ps).map fun r =>
        (p.pre ++ (36 :: natToDecimal (j + 1)) ++ r.1, p.format :: r.2)

/-- The named loop of `_query2pg_nocache` over `parts[:-1]`: `seen` maps each
name to its allocated marker and first format.  A first occurrence allocates
marker `b"$%d" % (len(seen) + 1)` and records its format and name; a repeat
reuses the stored marker, failing if its format differs. -/
def namedChunks : List QueryPart → List (List Nat × (List Nat × PyFormat)) →
    Except QueryError (List Nat × List PyFormat × List (List Nat))
  | [], _ => .ok ([], [], [])
  | p :: ps, seen =>
    match p.item with
    | .pos _ => .error .assertFail
    | .name nm =>
      match lookupKV seen nm with
      | none =>
        let ph := 36 :: natToDecimal (seen.length + 1)
        (namedChunks ps (seen ++ [(nm, (ph, p.format))])).map
          fun r => (p.pre ++ ph ++ r.1, p.format :: r.2.1, nm :: r.2.2)
      | some (ph, f0) =>
        if f0 ≠ p.format then .error (.conflictingFormat nm)
        else (namedChunks ps seen).map fun r => (p.pre ++ ph ++ r.1, r.2.1, r.2.2)

/-- The parsed server-bind query: rewritten query, formats, name order, parts. -/
structure PgQuery where
  query : List Nat
  formats : List PyFormat
  order : Option (List (List Nat))
  parts : List QueryPart
deriving DecidableEq

/-- `_query2pg_nocache`: split the query, then assemble `$N` markers. -/
def query2pg_nocache (q : List Nat) : Except QueryError PgQuery :=
  match split_query true q with
  | .error err => .error err
  | .ok parts =>
    match parts with
    | [] => .error .assertFail
    | p0 :: _ =>
      match p0.item with
      | .pos _ =>
        (posChunks parts.dropLast).map fun r =>
          ⟨r.1 ++ lastPre parts, r.2, none, parts⟩
      | .name _ =>
        (namedChunks parts.dropLast []).map fun r =>
          ⟨r.1 ++ lastPre parts, r.2.1, some r.2.2, parts⟩

/-- The positional loop of `_query2pg_client_nocache`: every placeholder
becomes the generic `b"%s"` marker. -/
def clientPosChunks : List QueryPart → Except QueryError (List Nat)
  | [] => .ok []
  | p :: ps =>
    match p.item with
    | .name _ => .error .assertFail
    | .pos _ => (clientPosChunks ps).map fun ch => p.pre ++ [37, 115] ++ ch

/-- The named loop of `_query2pg_client_nocache`: every occurrence becomes
`b"%s"` and is appended to the name-order list, repeats included; no format
conflict check is performed. -/
def clientNamedChunks : List QueryPart → List (List Nat × (List Nat × PyFormat)) →
    Except QueryError (List Nat × List (List Nat))
  | [], _ => .ok ([], [])
  | p :: ps, seen =>
    match p.item with
    | .pos _ => .error .assertFail
    | .name nm =>
      match lookupKV seen nm with
      | none =>
        let ph : List Nat := [37, 115]
        (clientNamedChunks ps (seen ++ [(nm, (ph, p.format))])).map
          fun r => (p.pre ++ ph ++ r.1, nm :: r.2)
      | some (ph, _) =>
        (clientNamedChunks ps seen).map fun r => (p.pre ++ ph ++ r.1, nm :: r.2)

/-- The parsed client-bind query: template, name order, parts. -/
structure PgClientQuery where
  template : List Nat
  order : Option (List (List Nat))
  parts : List QueryPart
deriving DecidableEq

/-- `_query2pg_client_nocache`: split without collapsing `%%`, then assemble
`%s` markers into a template. -/
def query2pg_client_nocache (q : List Nat) : Except QueryError PgClientQuery :=
  match split_query false q with
  | .error err => .error err
  | .ok parts =>
    match parts with
    | [] => .error .assertFail
    | p0 :: _ =>
      match p0.item with
      | .pos _ =>
        (clientPosChunks parts.dropLast).map fun ch => ⟨ch ++ lastPre parts, none, parts⟩
      | .name _ =>
        (clientNamedChunks parts.dropLast []).map fun r =>
          ⟨r.1 ++ lastPre parts, some r.2, parts⟩

/-- User-supplied parameters: an ordered sequence or a mapping (the two shapes
distinguished by `is_params_sequence`; other shapes raise a `TypeError`
before reaching the validator and are not modelled). -/
inductive Params (α : Type) where
  | seq (vs : List α)
  | map (kvs : List (List Nat × α))

/-- `len(vars)`: length of a sequence, or number of keys of a mapping. -/
def paramsLen : Params α → Nat
  | .seq vs => vs.length
  | .map kvs => kvs.length

/-- Whether `parts[0].item` is an `int` (`False` on an empty list; Python
would raise `IndexError` there, which is unreachable). -/
def headItemIsInt : List QueryPart → Bool
  | [] => false
  | p :: _ => match p.item with | .pos _ => true | .name _ => false

/-- Whether `parts[0].item` is a `str` (`False` on an empty list). -/
def headItemIsStr : List QueryPart → Bool
  | [] => false
  | p :: _ => match p.item with | .name _ => true | .pos _ => false

/-- Lexicographic byte-string comparison (Python `<=` on the decoded names;
for the byte strings used here the order coincides). -/
def lexLe : List Nat → List Nat → Bool
  | [], _ => true
  | _ :: _, [] => false
  | a :: as, b :: bs => if a < b then true else if b < a then false else lexLe as bs

/-- Insert into a lexicographically sorted list of names. -/
def insertName (nm : List Nat) : List (List Nat) → List (List Nat)
  | [] => [nm]
  | x :: xs => if lexLe nm x then nm :: x :: xs else x :: insertName nm xs

/-- `sorted(...)` on a list of names. -/
def sortNames : List (List Nat) → List (List Nat)
  | [] => []
  | x :: xs => insertName x (sortNames xs)

/-- `PostgresQuery.validate_and_reorder_params`.  The sequence branch checks
the parameter count against `len(parts) - 1` (Python `int` arithmetic, hence
`Int` here) and the placeholder style; the mapping branch rejects nonempty
mappings for positional queries and reorders by the name-order list,
collecting every missing name, sorted, into one error. -/
def validate_and_reorder_params (parts : List QueryPart) (vars : Params α)
    (order : Option (List (List Nat))) : Except QueryError (List α) :=
  match vars with
  | .seq vs =>
    if (vs.length : Int) ≠ (parts.length : Int) - 1 then
      .error (.countMismatch ((parts.length : Int) - 1) vs.length)
    else if vs.isEmpty = false ∧ headItemIsInt parts = false then
      .error .namedRequireMapping
    else
      .ok vs
  | .map kvs =>
    if kvs.isEmpty = false ∧ parts.length > 1 ∧ headItemIsStr parts = false then
      .error .positionalRequireSequence
    else
      match order with
      | some (o :: os) =>
        let missing := (o :: os).filter fun nm => (lookupKV kvs nm).isNone
        if missing = [] then .ok ((o :: os).filterMap (lookupKV kvs))
        else .error (.missingParams (sortNames missing))
      | _ => .ok []

/-- Cacheability thresholds of `_queries.py`. -/
def MAX_CACHED_STATEMENT_LENGTH : Nat := 4096

/-- Cacheability threshold on the number of parameters. -/
def MAX_CACHED_STATEMENT_PARAMS : Nat := 50

/-- The memoization table of `_query2pg = lru_cache()(_query2pg_nocache)`:
an association from query bytes to the computed result.  As with
`lru_cache`, a raised exception is not cached.  (The LRU capacity bound is
not modelled; it does not affect any result returned.) -/
def query2pg_cached (cache : List (List Nat × Except QueryError PgQuery)) (q : List Nat) :
    Except QueryError PgQuery × List (List Nat × Except QueryError PgQuery) :=
  match lookupKV cache q with
  | some r => (r, cache)
  | none =>
    let r := query2pg_nocache q
    (r, match r with | .ok _ => (q, r) :: cache | .error _ => cache)

/-- The memoization table of `_query2pg_client`, independent from the
server-bind one. -/
def query2pg_client_cached (cache : List (List Nat × Except QueryError PgClientQuery))
    (q : List Nat) : Except QueryError PgClientQuery × List (List Nat × Except QueryError PgClientQuery) :=
  match lookupKV cache q with
  | some r => (r, cache)
  | none =>
    let r := query2pg_client_nocache q
    (r, match r with | .ok _ => (q, r) :: cache | .error _ => cache)

/-- The two process-wide caches (server-bind and client-bind). -/
structure Caches where
  server : List (List Nat × Except QueryError PgQuery)
  client : List (List Nat × Except QueryError PgClientQuery)

/-- The external value transformer, as seen by `PostgresQuery` (an opaque
collaborator: `dump_sequence` produces the wire bytes, `types` and `formats`
are whatever the transformer reports afterwards). -/
structure Transformer (α β : Type) where
  dump_sequence : List α → List PyFormat → List (Option β)
  types : Option (List Nat)
  formats : Option (List Nat)

/-- The observable attributes of a `PostgresQuery` after `convert`. -/
structure PQState (α β : Type) where
  query : List Nat
  params : Option (List (Option β))
  types : List Nat
  formats : Option (List Nat)

/-- The `dump` phase of `PostgresQuery` for non-null vars, applied to a parse
result: validate/reorder, then hand to the transformer. -/
def dumpServer (tx : Transformer α β) (r : Except QueryError PgQuery) (vs : Params α) :
    Except QueryError (PQState α β) :=
  match r with
  | .error err => .error err
  | .ok pg =>
    match validate_and_reorder_params pg.parts vs pg.order with
    | .error err => .error err
    | .ok ps =>
      .ok ⟨pg.query, some (tx.dump_sequence ps pg.formats), (tx.types).getD [], tx.formats⟩

/-- `PostgresQuery.convert`: with vars, parse (through the cache only when the
query is short enough and the parameters few enough) and dump; with null
vars, pass the query bytes through untouched and reset the parameter
attributes. -/
def PostgresQuery_convert (tx : Transformer α β) (cs : Caches) (bquery : List Nat)
    (vars : Option (Params α)) : Except QueryError (PQState α β) × Caches :=
  match vars with
  | none => (.ok ⟨bquery, none, [], none⟩, cs)
  | some vs =>
    if bquery.length ≤ MAX_CACHED_STATEMENT_LENGTH ∧ paramsLen vs ≤ MAX_CACHED_STATEMENT_PARAMS then
      let rc := query2pg_cached cs.server bquery
      (dumpServer tx rc.1 vs, { cs with server := rc.2 })
    else
      (dumpServer tx (query2pg_nocache bquery) vs, cs)

/-- The external value transformer as seen by `PostgresClientQuery`:
`as_literal` renders one value as a literal. -/
structure ClientTransformer (α : Type) where
  as_literal : α → List Nat

/-- The observable attributes of a `PostgresClientQuery` after `convert`
(`types`/`formats` keep their initial values `()` and null). -/
structure PCQState where
  query : List Nat
  template : Option (List Nat)
  params : Option (List (List Nat))
  types : List Nat
  formats : Option (List Nat)

/-- `template % params`: substitute the literal byte strings for the `%s`
markers, unescaping `%%` (Python `bytes.__mod__`). -/
def renderTemplate : List Nat → List (List Nat) → List Nat
  | 37 :: 115 :: rest, a :: args => a ++ renderTemplate rest args
  | 37 :: 37 :: rest, args => 37 :: renderTemplate rest args
  | c :: rest, args => c :: renderTemplate rest args
  | [], _ => []

/-- The `dump` phase of `PostgresClientQuery` for non-null vars: validate,
render each value (`NULL` for a null value), substitute into the template. -/
def dumpClient (tx : ClientTransformer α) (r : Except QueryError PgClientQuery)
    (vs : Params (Option α)) : Except QueryError PCQState :=
  match r with
  | .error err => .error err
  | .ok pg =>
    match validate_and_reorder_params pg.parts vs pg.order with
    | .error err => .error err
    | .ok ps =>
      let lits := ps.map fun p =>
        match p with
        | some v => tx.as_literal v
        | none => [78, 85, 76, 76]
      .ok ⟨renderTemplate pg.template lits, some pg.template, some lits, [], none⟩

/-- `PostgresClientQuery.convert`, with its own independent cache. -/
def PostgresClientQuery_convert (tx : ClientTransformer α) (cs : Caches) (bquery : List Nat)
    (vars : Option (Params (Option α))) : Except QueryError PCQState × Caches :=
  match vars with
  | none => (.ok ⟨bquery, none, none, [], none⟩, cs)
  | some vs =>
    if bquery.length ≤ MAX_CACHED_STATEMENT_LENGTH ∧ paramsLen vs ≤ MAX_CACHED_STATEMENT_PARAMS then
      let rc := query2pg_client_cached cs.client bquery
      (dumpClient tx rc.1 vs, { cs with client := rc.2 })
    else
      (dumpClient tx (query2pg_client_nocache bquery) vs, cs)

/-- A server cache is coherent when every stored value is the value
`_query2pg_nocache` computes for its key. -/
def goodServerCache (c : List (List Nat × Except QueryError PgQuery)) : Prop :=
  ∀ e ∈ c, e.2 = query2pg_nocache e.1

/-- A client cache is coherent when every stored value is the value
`_query2pg_client_nocache` computes for its key. -/
def goodClientCache (c : List (List Nat × Except QueryError PgClientQuery)) : Prop :=
  ∀ e ∈ c, e.2 = query2pg_client_nocache e.1

/-- Both caches are coherent. -/
def goodCaches (cs : Caches) : Prop :=
  goodServerCache cs.server ∧ goodClientCache cs.client

/-! Specification-side definitions, used to state the properties. -/

/-- Replace every `%%` pair by a single `%`, scanning left to right. -/
def collapseDouble : List Nat → List Nat
  | [] => []
  | c :: rest =>
    if c = 37 then
      match rest with
      | [] => [37]
      | d :: rest2 => if d = 37 then 37 :: collapseDouble rest2 else 37 :: collapseDouble (d :: rest2)
    else c :: collapseDouble rest

/-- A `QueryPart` with its prefix `%%`-collapsed. -/
def collapsePart (p : QueryPart) : QueryPart :=
  ⟨collapseDouble p.pre, p.item, p.format⟩

/-- The `collapseDouble` scan of this byte string ends cleanly: no lone
trailing `%` is left pairing across a concatenation boundary. -/
def csafe : List Nat → Bool
  | [] => true
  | c :: rest =>
    if c = 37 then
      match rest with
      | [] => false
      | d :: rest2 => if d = 37 then csafe rest2 else csafe (d :: rest2)
    else csafe rest

/-- Every `%` in this byte string is immediately followed by a newline
(the shape of a fragment the scanner leaves before a placeholder). -/
def pctStrict : List Nat → Bool
  | [] => true
  | c :: rest =>
    if c = 37 then
      match rest with
      | [] => false
      | d :: _ => if d = 10 then pctStrict rest else false
    else pctStrict rest

/-- Every `%` is immediately followed by a newline or ends the string
(the shape of the trailing fragment after the last placeholder). -/
def pctTrail : List Nat → Bool
  | [] => true
  | c :: rest =>
    if c = 37 then
      match rest with
      | [] => true
      | d :: _ => if d = 10 then pctTrail rest else false
    else pctTrail rest

/-- Every `%` starts a `%%` pair, precedes a newline, or ends the string:
the only `%` shapes a non-collapsing scan may pass into an output prefix. -/
def legalPcts : List Nat → Bool
  | [] => true
  | c :: rest =>
    if c = 37 then
      match rest with
      | [] => true
      | d :: rest2 =>
        if d = 37 then legalPcts rest2
        else if d = 10 then legalPcts (d :: rest2)
        else false
    else legalPcts rest

/-- The placeholder parts carry the positional items `i, i+1, i+2, …` in
order. -/
def posSeq : Nat → List QueryPart → Bool
  | _, [] => true
  | i, p :: ps =>
    (match p.item with | .pos j => decide (j = i) | .name _ => false) && posSeq (i + 1) ps

/-- Expected positional server-bind assembly: the `n`-th placeholder part
(0-based, counting from `n₀`) is replaced by the marker `$ (n+1)`; the last
part contributes only its prefix. -/
def posJoin : Nat → List QueryPart → List Nat
  | _, [] => []
  | n, p :: ps => p.pre ++ (36 :: natToDecimal (n + 1)) ++ posJoin (n + 1) ps

/-- Expected server-bind rewritten query for a positional-only parts list:
the N-th placeholder occurrence becomes `$N` (1-based, left to right). -/
def assembleMarkers (parts : List QueryPart) : List Nat :=
  posJoin 0 parts.dropLast ++ lastPre parts

/-- Every part in the list carries a named item. -/
def allNamed : List QueryPart → Bool
  | [] => true
  | p :: ps => (match p.item with | .name _ => true | .pos _ => false) && allNamed ps

/-- The names of the parts, one entry per occurrence, in order. -/
def namesOf : List QueryPart → List (List Nat)
  | [] => []
  | p :: ps => match p.item with | .name nm => nm :: namesOf ps | .pos _ => namesOf ps

/-- First occurrences of names not in `avoid`, with the format carried by the
first occurrence, in first-occurrence order. -/
def firstOcc (avoid : List (List Nat)) : List QueryPart → List (List Nat × PyFormat)
  | [] => []
  | p :: ps =>
    match p.item with
    | .pos _ => firstOcc avoid ps
    | .name nm =>
      if nm ∈ avoid then firstOcc avoid ps
      else (nm, p.format) :: firstOcc (avoid ++ [nm]) ps

/-- Deduplicate a name list, keeping the first occurrence of each name not in
`avoid`, in first-occurrence order. -/
def dedupAvoid (avoid : List (List Nat)) : List (List Nat) → List (List Nat)
  | [] => []
  | n :: ns => if n ∈ avoid then dedupAvoid avoid ns else n :: dedupAvoid (avoid ++ [n]) ns

/-- Index of the first occurrence of a name in a list (length if absent). -/
def posIn (l : List (List Nat)) (nm : List Nat) : Nat :=
  match l with
  | [] => 0
  | x :: xs => if x = nm then 0 else posIn xs nm + 1

/-- Expected named server-bind assembly: every occurrence of a name is
replaced by the marker `$ (k+1)` where `k` is the position of the name in
the first-occurrence context `ctx`. -/
def namedJoin (ctx : List (List Nat)) : List QueryPart → List Nat
  | [] => []
  | p :: ps =>
    match p.item with
    | .name nm => p.pre ++ (36 :: natToDecimal (posIn ctx nm + 1)) ++ namedJoin ctx ps
    | .pos _ => []

/-- Expected named client-bind assembly: every occurrence becomes `%s`. -/
def clientJoinNamed : List QueryPart → List Nat
  | [] => []
  | p :: ps =>
    match p.item with
    | .name _ => p.pre ++ [37, 115] ++ clientJoinNamed ps
    | .pos _ => []

/-- All named parts are format-consistent with the first occurrence of their
name (first occurrences recorded in `ctx`). -/
def fmtConsistentCtx : List (List Nat × PyFormat) → List QueryPart → Bool
  | _, [] => true
  | ctx, p :: ps =>
    match p.item with
    | .pos _ => fmtConsistentCtx ctx ps
    | .name nm =>
      match lookupKV ctx nm with
      | some f0 => if f0 = p.format then fmtConsistentCtx ctx ps else false
      | none => fmtConsistentCtx (ctx ++ [(nm, p.format)]) ps

/-- The `seen` table built from first-occurrence pairs starting at marker
index `i`: the `j`-th entry maps its name to the marker `$ (i+j+1)` and its
format. -/
def mkSeenFrom (i : Nat) : List (List Nat × PyFormat) → List (List Nat × (List Nat × PyFormat))
  | [] => []
  | (nm, f) :: rest => (nm, (36 :: natToDecimal (i + 1), f)) :: mkSeenFrom (i + 1) rest

/-! Helper lemmas. -/

theorem exceptMap_ok {ε α β : Type} {f : α → β} {x : Except ε α} {y : β}
    (h : x.map f = .ok y) : ∃ a, x = .ok a ∧ y = f a := by
  cases x with
  | error e => simp [Except.map] at h
  | ok a => exact ⟨a, rfl, by simpa [Except.map] using h.symm⟩

theorem exceptMap_error {ε α β : Type} {f : α → β} {x : Except ε α} {e : ε}
    (h : x.map f = .error e) : x = .error e := by
  cases x with
  | error e0 => simpa [Except.map] using h
  | ok a => simp [Except.map] at h

theorem dropLast_cons_ne {α : Type} (p : α) {l : List α} (h : l ≠ []) :
    (p :: l).dropLast = p :: l.dropLast := by
  cases l with
  | nil => exact absurd rfl h
  | cons a l' => rfl

theorem processParts_ok_ne_nil :
    ∀ (c : Bool) (pairs : List (List Nat × PhMatch)) (trail : List Nat) (i : Nat)
      (pt : Option Bool) (acc : List Nat) (rv : List QueryPart),
      processParts c pairs trail i pt acc = .ok rv → rv ≠ [] := by
  intro c pairs
  induction pairs with
  | nil =>
    intro trail i pt acc rv h
    simp only [processParts] at h
    cases h
    simp
  | cons hd rest ih =>
    obtain ⟨pre, m⟩ := hd
    intro trail i pt acc rv h
    simp only [processParts] at h
    split at h
    · exact ih trail i pt _ rv h
    · split at h
      · cases h
      · split at h
        · cases h
        · split at h
          · cases h
          · split at h
            · cases h
            · obtain ⟨a, _, hy⟩ := exceptMap_ok h
              subst hy
              simp

theorem split_query_ok_ne_nil {c : Bool} {q : List Nat} {parts : List QueryPart}
    (h : split_query c q = .ok parts) : parts ≠ [] :=
  processParts_ok_ne_nil c (findMatches q).1 (findMatches q).2 0 none [] parts h

theorem processParts_posSeq :
    ∀ (c : Bool) (pairs : List (List Nat × PhMatch)) (trail : List Nat) (i : Nat)
      (acc : List Nat) (rv : List QueryPart),
      processParts c pairs trail i (some false) acc = .ok rv →
      posSeq i rv.dropLast = true := by
  intro c pairs
  induction pairs with
  | nil =>
    intro trail i acc rv h
    simp only [processParts] at h
    cases h
    simp [posSeq]
  | cons hd rest ih =>
    obtain ⟨pre, m⟩ := hd
    intro trail i acc rv h
    simp only [processParts] at h
    split at h
    · exact ih trail i _ rv h
    · split at h
      · cases h
      · split at h
        · cases h
        · split at h
          · cases h
          · cases hg : m.group1 with
            | some nm => simp [hg] at h
            | none =>
              simp only [hg, bne_self_eq_false, Bool.false_eq_true, if_false] at h
              obtain ⟨rv', hrec, hy⟩ := exceptMap_ok h
              subst hy
              have hne := processParts_ok_ne_nil c rest trail (i + 1) (some false) [] rv' hrec
              rw [dropLast_cons_ne _ hne]
              simp only [posSeq, Bool.and_eq_true]
              exact ⟨by simp, ih trail (i + 1) [] rv' hrec⟩

theorem processParts_allNamed :
    ∀ (c : Bool) (pairs : List (List Nat × PhMatch)) (trail : List Nat) (i : Nat)
      (acc : List Nat) (rv : List QueryPart),
      processParts c pairs trail i (some true) acc = .ok rv →
      allNamed rv.dropLast = true := by
  intro c pairs
  induction pairs with
  | nil =>
    intro trail i acc rv h
    simp only [processParts] at h
    cases h
    simp [allNamed]
  | cons hd rest ih =>
    obtain ⟨pre, m⟩ := hd
    intro trail i acc rv h
    simp only [processParts] at h
    split at h
    · exact ih trail i _ rv h
    · split at h
      · cases h
      · split at h
        · cases h
        · split at h
          · cases h
          · cases hg : m.group1 with
            | none => simp [hg] at h
            | some nm =>
              simp only [hg, bne_self_eq_false, Bool.false_eq_true, if_false] at h
              obtain ⟨rv', hrec, hy⟩ := exceptMap_ok h
              subst hy
              have hne := processParts_ok_ne_nil c rest trail (i + 1) (some true) [] rv' hrec
              rw [dropLast_cons_ne _ hne]
              simp only [allNamed, Bool.and_eq_true]
              exact ⟨by simp, ih trail (i + 1) [] rv' hrec⟩

theorem processParts_start :
    ∀ (c : Bool) (pairs : List (List Nat × PhMatch)) (trail : List Nat) (i : Nat)
      (acc : List Nat) (rv : List QueryPart),
      processParts c pairs trail i none acc = .ok rv →
      (headItemIsInt rv = true → posSeq i rv.dropLast = true) ∧
      (headItemIsStr rv = true → allNamed rv.dropLast = true) := by
  intro c pairs
  induction pairs with
  | nil =>
    intro trail i acc rv h
    simp only [processParts] at h
    cases h
    constructor <;> intro _ <;> simp [posSeq, allNamed]
  | cons hd rest ih =>
    obtain ⟨pre, m⟩ := hd
    intro trail i acc rv h
    simp only [processParts] at h
    split at h
    · exact ih trail i _ rv h
    · split at h
      · cases h
      · split at h
        · cases h
        · split at h
          · cases h
          · cases hg : m.group1 with
            | none =>
              simp only [hg, if_false] at h
              obtain ⟨rv', hrec, hy⟩ := exceptMap_ok h
              subst hy
              have hne := processParts_ok_ne_nil c rest trail (i + 1) (some false) [] rv' hrec
              constructor
              · intro _
                rw [dropLast_cons_ne _ hne]
                simp only [posSeq, Bool.and_eq_true]
                exact ⟨by simp, processParts_posSeq c rest trail (i + 1) [] rv' hrec⟩
              · intro hstr
                simp [headItemIsStr] at hstr
            | some nm =>
              simp only [hg, if_false] at h
              obtain ⟨rv', hrec, hy⟩ := exceptMap_ok h
              subst hy
              have hne := processParts_ok_ne_nil c rest trail (i + 1) (some true) [] rv' hrec
              constructor
              · intro hint
                simp [headItemIsInt] at hint
              · intro _
                rw [dropLast_cons_ne _ hne]
                simp only [allNamed, Bool.and_eq_true]
                exact ⟨by simp, processParts_allNamed c rest trail (i + 1) [] rv' hrec⟩

theorem split_query_posSeq {c : Bool} {q : List Nat} {parts : List QueryPart}
    (h : split_query c q = .ok parts) (hp : headItemIsInt parts = true) :
    posSeq 0 parts.dropLast = true :=
  (processParts_start c (findMatches q).1 (findMatches q).2 0 [] parts h).1 hp

theorem split_query_allNamed {c : Bool} {q : List Nat} {parts : List QueryPart}
    (h : split_query c q = .ok parts) (hp : headItemIsStr parts = true) :
    allNamed parts.dropLast = true :=
  (processParts_start c (findMatches q).1 (findMatches q).2 0 [] parts h).2 hp

theorem posChunks_spec :
    ∀ (l : List QueryPart) (n : Nat), posSeq n l = true →
      posChunks l = .ok (posJoin n l, l.map (·.format)) := by
  intro l
  induction l with
  | nil => intro n _; rfl
  | cons p ps ih =>
    intro n hseq
    simp only [posSeq, Bool.and_eq_true] at hseq
    obtain ⟨hitem, hrest⟩ := hseq
    cases hp : p.item with
    | name nm => rw [hp] at hitem; simp at hitem
    | pos j =>
      rw [hp] at hitem
      simp only [decide_eq_true_eq] at hitem
      subst hitem
      simp only [posChunks, hp, posJoin, List.map_cons]
      rw [ih _ hrest]
      simp [Except.map]

theorem query2pg_positional {q : List Nat} {parts : List QueryPart}
    (h : split_query true q = .ok parts) (hp : headItemIsInt parts = true) :
    query2pg_nocache q = .ok ⟨assembleMarkers parts, parts.dropLast.map (·.format), none, parts⟩ := by
  have hne := split_query_ok_ne_nil h
  have hseq := split_query_posSeq h hp
  unfold query2pg_nocache
  rw [h]
  cases parts with
  | nil => exact absurd rfl hne
  | cons p0 rest =>
    cases hp0 : p0.item with
    | name nm => simp [headItemIsStr, headItemIsInt, hp0] at hp
    | pos j =>
      simp only [hp0]
      rw [posChunks_spec _ 0 hseq]
      simp [Except.map, assembleMarkers]

theorem mkSeenFrom_length (i : Nat) (ns : List (List Nat × PyFormat)) :
    (mkSeenFrom i ns).length = ns.length := by
  induction ns generalizing i with
  | nil => rfl
  | cons hd rest ih => obtain ⟨nm, f⟩ := hd; simp [mkSeenFrom, ih]

theorem mkSeenFrom_append (i : Nat) (a b : List (List Nat × PyFormat)) :
    mkSeenFrom i (a ++ b) = mkSeenFrom i a ++ mkSeenFrom (i + a.length) b := by
  induction a generalizing i with
  | nil => simp [mkSeenFrom]
  | cons hd rest ih =>
    obtain ⟨nm, f⟩ := hd
    simp only [List.cons_append, mkSeenFrom, List.length_cons, List.append_eq]
    rw [ih (i + 1)]
    have harith : i + 1 + rest.length = i + (rest.length + 1) := by omega
    rw [harith]

theorem lookupKV_mkSeenFrom_none {ns : List (List Nat × PyFormat)} {nm : List Nat} (i : Nat) :
    lookupKV (mkSeenFrom i ns) nm = none ↔ lookupKV ns nm = none := by
  induction ns generalizing i with
  | nil => simp [mkSeenFrom, lookupKV]
  | cons hd rest ih =>
    obtain ⟨k, f⟩ := hd
    by_cases hk : k = nm
    · simp [mkSeenFrom, lookupKV, hk]
    · simp only [mkSeenFrom, lookupKV, hk, if_false]
      exact ih (i + 1)

theorem lookupKV_mkSeenFrom_some {ns : List (List Nat × PyFormat)} {nm : List Nat}
    {f : PyFormat} (i : Nat) (h : lookupKV ns nm = some f) :
    lookupKV (mkSeenFrom i ns) nm =
      some (36 :: natToDecimal (i + posIn (ns.map Prod.fst) nm + 1), f) := by
  induction ns generalizing i with
  | nil => simp [lookupKV] at h
  | cons hd rest ih =>
    obtain ⟨k, f0⟩ := hd
    by_cases hk : k = nm
    · simp only [lookupKV, hk, if_true] at h
      cases h
      simp [mkSeenFrom, lookupKV, hk, posIn]
    · simp only [lookupKV, hk, if_false] at h
      have hrec := ih (i + 1) h
      simp only [mkSeenFrom, lookupKV, hk, if_false, List.map_cons, posIn, hrec]
      have harith : i + 1 + posIn (List.map Prod.fst rest) nm + 1
          = i + (posIn (List.map Prod.fst rest) nm + 1) + 1 := by omega
      rw [harith]

theorem lookupKV_none_iff {α : Type} {kvs : List (List Nat × α)} {nm : List Nat} :
    lookupKV kvs nm = none ↔ nm ∉ kvs.map Prod.fst := by
  induction kvs with
  | nil => simp [lookupKV]
  | cons hd rest ih =>
    obtain ⟨k, v⟩ := hd
    by_cases hk : k = nm
    · simp [lookupKV, hk]
    · simp only [lookupKV, hk, if_false, List.map_cons, List.mem_cons]
      rw [ih]
      constructor
      · intro hn hc
        rcases hc with hc | hc
        · exact hk hc.symm
        · exact hn hc
      · intro hn hc
        exact hn (Or.inr hc)

theorem lookupKV_mem {α : Type} {kvs : List (List Nat × α)} {nm : List Nat} {v : α}
    (h : lookupKV kvs nm = some v) : ∃ k, (k, v) ∈ kvs := by
  induction kvs with
  | nil => simp [lookupKV] at h
  | cons hd rest ih =>
    obtain ⟨k, v0⟩ := hd
    by_cases hk : k = nm
    · simp only [lookupKV, hk, if_true] at h
      cases h
      exact ⟨nm, by simp [hk]⟩
    · simp only [lookupKV, hk, if_false] at h
      obtain ⟨k', hk'⟩ := ih h
      exact ⟨k', by simp [hk']⟩

theorem posIn_append_mem {a : List (List Nat)} {nm : List Nat} (b : List (List Nat))
    (h : nm ∈ a) : posIn (a ++ b) nm = posIn a nm := by
  induction a with
  | nil => simp at h
  | cons x xs ih =>
    by_cases hx : x = nm
    · simp [posIn, hx]
    · simp only [List.cons_append, posIn, hx, if_false]
      congr 1
      exact ih (by rcases List.mem_cons.mp h with hc | hc; exact absurd hc.symm hx; exact hc)

theorem posIn_append_self {a : List (List Nat)} {nm : List Nat} (z : List (List Nat))
    (h : nm ∉ a) : posIn (a ++ nm :: z) nm = a.length := by
  induction a with
  | nil => simp [posIn]
  | cons x xs ih =>
    have hx : x ≠ nm := fun hc => h (by simp [hc])
    simp only [List.cons_append, posIn, hx, if_false, List.length_cons]
    congr 1
    exact ih (fun hc => h (by simp [hc]))

theorem namedChunks_spec :
    ∀ (l : List QueryPart) (ns : List (List Nat × PyFormat))
      (out : List Nat × List PyFormat × List (List Nat)),
      namedChunks l (mkSeenFrom 0 ns) = .ok out →
      out.2.2 = (firstOcc (ns.map Prod.fst) l).map Prod.fst ∧
      out.2.1 = (firstOcc (ns.map Prod.fst) l).map Prod.snd ∧
      out.1 = namedJoin (ns.map Prod.fst ++ (firstOcc (ns.map Prod.fst) l).map Prod.fst) l := by
  intro l
  induction l with
  | nil =>
    intro ns out h
    simp only [namedChunks] at h
    cases h
    simp [firstOcc, namedJoin]
  | cons p ps ih =>
    intro ns out h
    obtain ⟨ppre, pitem, pfmt⟩ := p
    cases pitem with
    | pos j =>
      simp only [namedChunks] at h
      cases h
    | name nm =>
      simp only [namedChunks] at h
      cases hmk : lookupKV (mkSeenFrom 0 ns) nm with
      | some phf =>
        obtain ⟨ph, f0⟩ := phf
        rw [hmk] at h
        obtain ⟨f1, hlk2⟩ : ∃ f1, lookupKV ns nm = some f1 := by
          cases hlk0 : lookupKV ns nm with
          | none => rw [(lookupKV_mkSeenFrom_none 0).mpr hlk0] at hmk; cases hmk
          | some f1 => exact ⟨f1, rfl⟩
        have hps := lookupKV_mkSeenFrom_some 0 hlk2
        rw [hmk] at hps
        have hps' : ph = 36 :: natToDecimal (0 + posIn (ns.map Prod.fst) nm + 1) ∧ f0 = f1 := by
          have := hps.symm
          simp only [Option.some.injEq, Prod.mk.injEq] at this
          exact ⟨this.1.symm, this.2.symm⟩
        have hlk : lookupKV ns nm = some f0 := by
          rw [hlk2, hps'.2]
        have hph : ph = 36 :: natToDecimal (posIn (ns.map Prod.fst) nm + 1) := by
          simpa using hps'.1
        have hmem : nm ∈ ns.map Prod.fst := by
          by_contra hc
          rw [← lookupKV_none_iff] at hc
          rw [hc] at hlk
          cases hlk
        by_cases hf : f0 = pfmt
        · simp only [hf, ne_eq, not_true_eq_false, if_false] at h
          obtain ⟨out', hrec, hout⟩ := exceptMap_ok h
          subst hout
          obtain ⟨h1, h2, h3⟩ := ih ns out' hrec
          refine ⟨?_, ?_, ?_⟩
          · simpa [firstOcc, hmem] using h1
          · simpa [firstOcc, hmem] using h2
          · simp only [firstOcc, hmem, if_true, namedJoin]
            rw [posIn_append_mem _ hmem, h3, hph]
        · simp only [ne_eq, hf, not_false_eq_true, if_true] at h
          cases h
      | none =>
        rw [hmk] at h
        have hlk : lookupKV ns nm = none := (lookupKV_mkSeenFrom_none 0).mp hmk
        obtain ⟨out', hrec, hout⟩ := exceptMap_ok h
        subst hout
        have hnm : nm ∉ ns.map Prod.fst := lookupKV_none_iff.mp hlk
        have hseen : mkSeenFrom 0 ns ++ [(nm, (36 :: natToDecimal ((mkSeenFrom 0 ns).length + 1), pfmt))]
            = mkSeenFrom 0 (ns ++ [(nm, pfmt)]) := by
          rw [mkSeenFrom_append, mkSeenFrom_length]
          simp [mkSeenFrom]
        rw [hseen] at hrec
        obtain ⟨h1, h2, h3⟩ := ih (ns ++ [(nm, pfmt)]) out' hrec
        rw [List.map_append] at h1 h2 h3
        simp only [List.map_cons, List.map_nil] at h1 h2 h3
        refine ⟨?_, ?_, ?_⟩
        · simp only [firstOcc, hnm, if_false, List.map_cons]
          rw [h1]
        · simp only [firstOcc, hnm, if_false, List.map_cons]
          rw [h2]
        · simp only [firstOcc, hnm, if_false, List.map_cons, namedJoin, mkSeenFrom_length]
          have hpos : posIn (ns.map Prod.fst ++ nm :: (firstOcc (ns.map Prod.fst ++ [nm]) ps).map Prod.fst) nm
              = ns.length := by
            rw [posIn_append_self _ hnm]
            simp
          have hjoin : ns.map Prod.fst ++ nm :: (firstOcc (ns.map Prod.fst ++ [nm]) ps).map Prod.fst
              = (ns.map Prod.fst ++ [nm]) ++ (firstOcc (ns.map Prod.fst ++ [nm]) ps).map Prod.fst := by
            simp
          rw [h3, hpos, hjoin]

theorem namedChunks_consistent :
    ∀ (l : List QueryPart) (ns : List (List Nat × PyFormat)), allNamed l = true →
      (fmtConsistentCtx ns l = true → ∃ out, namedChunks l (mkSeenFrom 0 ns) = .ok out) ∧
      (fmtConsistentCtx ns l = false →
        ∃ nm, namedChunks l (mkSeenFrom 0 ns) = .error (.conflictingFormat nm)) := by
  intro l
  induction l with
  | nil =>
    intro ns _
    constructor
    · intro _
      exact ⟨([], [], []), rfl⟩
    · intro hc
      simp [fmtConsistentCtx] at hc
  | cons p ps ih =>
    intro ns hall
    obtain ⟨ppre, pitem, pfmt⟩ := p
    simp only [allNamed, Bool.and_eq_true] at hall
    cases pitem with
    | pos j => simp at hall
    | name nm =>
      have hall' := hall.2
      cases hlk : lookupKV ns nm with
      | some f0 =>
        have hmkv := lookupKV_mkSeenFrom_some 0 hlk
        by_cases hf : f0 = pfmt
        · constructor
          · intro hcons
            simp only [fmtConsistentCtx, hlk, hf, if_true] at hcons
            obtain ⟨out', hrec⟩ := (ih ns hall').1 hcons
            have hstep : namedChunks (⟨ppre, Item.name nm, pfmt⟩ :: ps) (mkSeenFrom 0 ns)
                = .ok (ppre ++ (36 :: natToDecimal (0 + posIn (List.map Prod.fst ns) nm + 1)) ++ out'.1,
                    out'.2.1, out'.2.2) := by
              simp only [namedChunks, hmkv, ne_eq, hf, not_true_eq_false, if_false, hrec,
                Except.map]
            exact ⟨_, hstep⟩
          · intro hcons
            simp only [fmtConsistentCtx, hlk, hf, if_true] at hcons
            obtain ⟨nm', hrec⟩ := (ih ns hall').2 hcons
            refine ⟨nm', ?_⟩
            simp only [namedChunks, hmkv, ne_eq, hf, not_true_eq_false, if_false, hrec,
              Except.map]
        · constructor
          · intro hcons
            simp only [fmtConsistentCtx, hlk, hf, if_false] at hcons
            simp at hcons
          · intro _
            refine ⟨nm, ?_⟩
            simp only [namedChunks, hmkv, ne_eq, hf, not_false_eq_true, if_true]
      | none =>
        have hmkv := (lookupKV_mkSeenFrom_none 0).mpr hlk
        have hseen : mkSeenFrom 0 ns ++ [(nm, (36 :: natToDecimal ((mkSeenFrom 0 ns).length + 1), pfmt))]
            = mkSeenFrom 0 (ns ++ [(nm, pfmt)]) := by
          rw [mkSeenFrom_append, mkSeenFrom_length]
          simp [mkSeenFrom]
        constructor
        · intro hcons
          simp only [fmtConsistentCtx, hlk] at hcons
          obtain ⟨out', hrec⟩ := (ih (ns ++ [(nm, pfmt)]) hall').1 hcons
          rw [← hseen] at hrec
          have hstep : namedChunks (⟨ppre, Item.name nm, pfmt⟩ :: ps) (mkSeenFrom 0 ns)
              = .ok (ppre ++ (36 :: natToDecimal ((mkSeenFrom 0 ns).length + 1)) ++ out'.1,
                  pfmt :: out'.2.1, nm :: out'.2.2) := by
            simp only [namedChunks, hmkv, hrec, Except.map]
          exact ⟨_, hstep⟩
        · intro hcons
          simp only [fmtConsistentCtx, hlk] at hcons
          obtain ⟨nm', hrec⟩ := (ih (ns ++ [(nm, pfmt)]) hall').2 hcons
          rw [← hseen] at hrec
          refine ⟨nm', ?_⟩
          simp only [namedChunks, hmkv, hrec, Except.map]

theorem clientNamedChunks_spec :
    ∀ (l : List QueryPart) (seen : List (List Nat × (List Nat × PyFormat))),
      allNamed l = true → (∀ e ∈ seen, e.2.1 = [37, 115]) →
      clientNamedChunks l seen = .ok (clientJoinNamed l, namesOf l) := by
  intro l
  induction l with
  | nil => intro seen _ _; rfl
  | cons p ps ih =>
    intro seen hall hseen
    obtain ⟨ppre, pitem, pfmt⟩ := p
    simp only [allNamed, Bool.and_eq_true] at hall
    cases pitem with
    | pos j => simp at hall
    | name nm =>
      cases hlk : lookupKV seen nm with
      | some phf =>
        obtain ⟨ph, f0⟩ := phf
        have hph : ph = [37, 115] := by
          obtain ⟨k, hk⟩ := lookupKV_mem hlk
          exact hseen (k, ph, f0) hk
        simp only [clientNamedChunks, hlk, ih seen hall.2 hseen, Except.map, hph,
          clientJoinNamed, namesOf]
      | none =>
        have hseen' : ∀ e ∈ seen ++ [(nm, ([37, 115], pfmt))], e.2.1 = [37, 115] := by
          intro e he
          rcases List.mem_append.mp he with he | he
          · exact hseen e he
          · simp only [List.mem_singleton] at he
            subst he
            rfl
        simp only [clientNamedChunks, hlk, ih _ hall.2 hseen', Except.map,
          clientJoinNamed, namesOf]

theorem firstOcc_fst_dedup :
    ∀ (l : List QueryPart) (avoid : List (List Nat)),
      (firstOcc avoid l).map Prod.fst = dedupAvoid avoid (namesOf l) := by
  intro l
  induction l with
  | nil => intro avoid; rfl
  | cons p ps ih =>
    intro avoid
    obtain ⟨ppre, pitem, pfmt⟩ := p
    cases pitem with
    | pos j => simp only [firstOcc, namesOf, ih]
    | name nm =>
      by_cases hm : nm ∈ avoid
      · simp only [firstOcc, namesOf, hm, if_true, ih, dedupAvoid]
      · simp only [firstOcc, namesOf, hm, if_false, ih, dedupAvoid, List.map_cons]

theorem clientPosChunks_error :
    ∀ (l : List QueryPart) (e : QueryError), clientPosChunks l = .error e → e = .assertFail := by
  intro l
  induction l with
  | nil => intro e h; cases h
  | cons p ps ih =>
    intro e h
    obtain ⟨ppre, pitem, pfmt⟩ := p
    cases pitem with
    | name nm =>
      simp only [clientPosChunks] at h
      cases h
      rfl
    | pos j =>
      simp only [clientPosChunks] at h
      exact ih e (exceptMap_error h)

theorem clientNamedChunks_error :
    ∀ (l : List QueryPart) (seen : List (List Nat × (List Nat × PyFormat))) (e : QueryError),
      clientNamedChunks l seen = .error e → e = .assertFail := by
  intro l
  induction l with
  | nil => intro seen e h; cases h
  | cons p ps ih =>
    intro seen e h
    obtain ⟨ppre, pitem, pfmt⟩ := p
    cases pitem with
    | pos j =>
      simp only [clientNamedChunks] at h
      cases h
      rfl
    | name nm =>
      simp only [clientNamedChunks] at h
      cases hlk : lookupKV seen nm with
      | some phf =>
        obtain ⟨ph, f0⟩ := phf
        rw [hlk] at h
        exact ih seen e (exceptMap_error h)
      | none =>
        rw [hlk] at h
        exact ih _ e (exceptMap_error h)

theorem processParts_error_not_conflicting :
    ∀ (c : Bool) (pairs : List (List Nat × PhMatch)) (trail : List Nat) (i : Nat)
      (pt : Option Bool) (acc : List Nat) (e : QueryError),
      processParts c pairs trail i pt acc = .error e → ∀ nm, e ≠ .conflictingFormat nm := by
  intro c pairs
  induction pairs with
  | nil =>
    intro trail i pt acc e h
    simp only [processParts] at h
    cases h
  | cons hd rest ih =>
    obtain ⟨pre, m⟩ := hd
    intro trail i pt acc e h
    simp only [processParts] at h
    split at h
    · exact ih trail i pt _ e h
    · split at h
      · cases h
        intro nm hc
        cases hc
      · split at h
        · cases h
          intro nm hc
          cases hc
        · split at h
          · cases h
            intro nm hc
            cases hc
          · split at h
            · cases h
              intro nm hc
              cases hc
            · exact ih trail (i + 1) _ [] e (exceptMap_error h)

theorem split_query_eq (c : Bool) (q : List Nat) :
    split_query c q = processParts c (findMatches q).1 (findMatches q).2 0 none [] := rfl

theorem query2pg_client_no_conflict (q : List Nat) (nm : List Nat) :
    query2pg_client_nocache q ≠ .error (.conflictingFormat nm) := by
  intro hc
  cases hs : split_query false q with
  | error e =>
    simp only [query2pg_client_nocache, hs] at hc
    cases hc
    exact processParts_error_not_conflicting false (findMatches q).1 (findMatches q).2
      0 none [] _ hs nm rfl
  | ok parts =>
    cases parts with
    | nil =>
      simp only [query2pg_client_nocache, hs] at hc
      cases hc
    | cons p0 rest =>
      obtain ⟨pre0, item0, fmt0⟩ := p0
      cases item0 with
      | pos j =>
        simp only [query2pg_client_nocache, hs] at hc
        have h2 := exceptMap_error hc
        have h3 := clientPosChunks_error _ _ h2
        cases h3
      | name nm0 =>
        simp only [query2pg_client_nocache, hs] at hc
        have h2 := exceptMap_error hc
        have h3 := clientNamedChunks_error _ _ _ h2
        cases h3

theorem query2pg_named {q : List Nat} {parts : List QueryPart}
    (h : split_query true q = .ok parts) (hp : headItemIsStr parts = true) :
    (fmtConsistentCtx [] parts.dropLast = true →
      query2pg_nocache q = .ok
        ⟨namedJoin ((firstOcc [] parts.dropLast).map Prod.fst) parts.dropLast ++ lastPre parts,
          (firstOcc [] parts.dropLast).map Prod.snd,
          some ((firstOcc [] parts.dropLast).map Prod.fst), parts⟩) ∧
    (fmtConsistentCtx [] parts.dropLast = false →
      ∃ nm, query2pg_nocache q = .error (.conflictingFormat nm)) := by
  have hall := split_query_allNamed h hp
  cases parts with
  | nil => simp [headItemIsStr] at hp
  | cons p0 rest =>
    obtain ⟨pre0, item0, fmt0⟩ := p0
    cases item0 with
    | pos j => simp [headItemIsStr] at hp
    | name nm0 =>
      constructor
      · intro hcons
        obtain ⟨out, hout⟩ :=
          (namedChunks_consistent (⟨pre0, Item.name nm0, fmt0⟩ :: rest).dropLast [] hall).1 hcons
        obtain ⟨h1, h2, h3⟩ := namedChunks_spec _ [] out hout
        simp only [List.map_nil, List.nil_append] at h1 h2 h3
        have hout' : namedChunks (⟨pre0, Item.name nm0, fmt0⟩ :: rest).dropLast [] = .ok out := by
          simpa [mkSeenFrom] using hout
        simp only [query2pg_nocache, hout', Except.map, h]
        rw [← h3, ← h2, ← h1]
      · intro hcons
        obtain ⟨nm, hout⟩ :=
          (namedChunks_consistent (⟨pre0, Item.name nm0, fmt0⟩ :: rest).dropLast [] hall).2 hcons
        have hout' : namedChunks (⟨pre0, Item.name nm0, fmt0⟩ :: rest).dropLast []
            = .error (.conflictingFormat nm) := by
          simpa [mkSeenFrom] using hout
        refine ⟨nm, ?_⟩
        simp only [query2pg_nocache, hout', Except.map, h]

theorem query2pg_client_named {q : List Nat} {parts : List QueryPart}
    (h : split_query false q = .ok parts) (hp : headItemIsStr parts = true) :
    query2pg_client_nocache q = .ok
      ⟨clientJoinNamed parts.dropLast ++ lastPre parts, some (namesOf parts.dropLast), parts⟩ := by
  have hall := split_query_allNamed h hp
  cases parts with
  | nil => simp [headItemIsStr] at hp
  | cons p0 rest =>
    obtain ⟨pre0, item0, fmt0⟩ := p0
    cases item0 with
    | pos j => simp [headItemIsStr] at hp
    | name nm0 =>
      have hrun := clientNamedChunks_spec (⟨pre0, Item.name nm0, fmt0⟩ :: rest).dropLast []
        hall (by intro e he; simp at he)
      simp only [query2pg_client_nocache, h, hrun, Except.map]

/-! Scan algebra: how `collapseDouble` interacts with concatenation and with
the fragment shapes the scanner produces. -/

theorem collapseDouble_two37 (rest : List Nat) :
    collapseDouble (37 :: 37 :: rest) = 37 :: collapseDouble rest := by
  rw [collapseDouble.eq_def]
  simp

theorem collapseDouble_cons37_ne {c : Nat} (rest : List Nat) (h : ¬ c = 37) :
    collapseDouble (37 :: c :: rest) = 37 :: collapseDouble (c :: rest) := by
  rw [collapseDouble.eq_def]
  simp [h]

theorem collapseDouble_cons_ne {c : Nat} (rest : List Nat) (h : ¬ c = 37) :
    collapseDouble (c :: rest) = c :: collapseDouble rest := by
  rw [collapseDouble.eq_def]
  simp [h]

theorem csafe_cons_ne {c : Nat} (rest : List Nat) (h : ¬ c = 37) :
    csafe (c :: rest) = csafe rest := by
  rw [csafe.eq_def]
  simp [h]

theorem csafe_two37 (rest : List Nat) : csafe (37 :: 37 :: rest) = csafe rest := by
  rw [csafe.eq_def]
  simp

theorem csafe_cons37_ne {c : Nat} (rest : List Nat) (h : ¬ c = 37) :
    csafe (37 :: c :: rest) = csafe (c :: rest) := by
  rw [csafe.eq_def]
  simp [h]

theorem csafe_single37 : csafe [37] = false := by
  rw [csafe.eq_def]
  simp

theorem pctStrict_cons_ne {c : Nat} (rest : List Nat) (h : ¬ c = 37) :
    pctStrict (c :: rest) = pctStrict rest := by
  rw [pctStrict.eq_def]
  simp [h]

theorem pctStrict_37nl (rest : List Nat) :
    pctStrict (37 :: 10 :: rest) = pctStrict (10 :: rest) := by
  rw [pctStrict.eq_def]
  simp

theorem pctStrict_37ne {c : Nat} (rest : List Nat) (h : ¬ c = 10) :
    pctStrict (37 :: c :: rest) = false := by
  rw [pctStrict.eq_def]
  simp [h]

theorem pctStrict_single37 : pctStrict [37] = false := by
  rw [pctStrict.eq_def]
  simp

theorem pctTrail_cons_ne {c : Nat} (rest : List Nat) (h : ¬ c = 37) :
    pctTrail (c :: rest) = pctTrail rest := by
  rw [pctTrail.eq_def]
  simp [h]

theorem pctTrail_37nl (rest : List Nat) :
    pctTrail (37 :: 10 :: rest) = pctTrail (10 :: rest) := by
  rw [pctTrail.eq_def]
  simp

theorem pctTrail_37ne {c : Nat} (rest : List Nat) (h : ¬ c = 10) :
    pctTrail (37 :: c :: rest) = false := by
  rw [pctTrail.eq_def]
  simp [h]

theorem pctTrail_single37 : pctTrail [37] = true := by
  rw [pctTrail.eq_def]
  simp

theorem legalPcts_cons_ne {c : Nat} (rest : List Nat) (h : ¬ c = 37) :
    legalPcts (c :: rest) = legalPcts rest := by
  rw [legalPcts.eq_def]
  simp [h]

theorem legalPcts_two37 (rest : List Nat) : legalPcts (37 :: 37 :: rest) = legalPcts rest := by
  rw [legalPcts.eq_def]
  simp

theorem legalPcts_37nl (rest : List Nat) :
    legalPcts (37 :: 10 :: rest) = legalPcts (10 :: rest) := by
  rw [legalPcts.eq_def]
  simp

theorem legalPcts_single37 : legalPcts [37] = true := by
  rw [legalPcts.eq_def]
  simp

theorem legalPcts_nil : legalPcts [] = true := rfl

theorem collapseDouble_append {a : List Nat} (b : List Nat) (h : csafe a = true) :
    collapseDouble (a ++ b) = collapseDouble a ++ collapseDouble b := by
  induction a using csafe.induct with
  | case1 => rfl
  | case2 => rw [csafe_single37] at h; cases h
  | case3 rest ih =>
    have h' : csafe rest = true := by rwa [csafe_two37] at h
    rw [List.cons_append, List.cons_append, collapseDouble_two37, collapseDouble_two37,
      ih h', List.cons_append]
  | case4 c rest hne ih =>
    have h' : csafe (c :: rest) = true := by rwa [csafe_cons37_ne _ hne] at h
    have ih' := ih h'
    rw [List.cons_append] at ih'
    rw [List.cons_append, List.cons_append, collapseDouble_cons37_ne _ hne,
      collapseDouble_cons37_ne _ hne, ih', List.cons_append]
  | case5 c rest hne ih =>
    have h' : csafe rest = true := by rwa [csafe_cons_ne _ hne] at h
    rw [List.cons_append, collapseDouble_cons_ne _ hne, collapseDouble_cons_ne _ hne,
      ih h', List.cons_append]

theorem csafe_append {a b : List Nat} (ha : csafe a = true) (hb : csafe b = true) :
    csafe (a ++ b) = true := by
  induction a using csafe.induct with
  | case1 => simpa using hb
  | case2 => rw [csafe_single37] at ha; cases ha
  | case3 rest ih =>
    have h' : csafe rest = true := by rwa [csafe_two37] at ha
    rw [List.cons_append, List.cons_append, csafe_two37]
    exact ih h'
  | case4 c rest hne ih =>
    have h' : csafe (c :: rest) = true := by rwa [csafe_cons37_ne _ hne] at ha
    have ih' := ih h'
    rw [List.cons_append] at ih'
    rw [List.cons_append, List.cons_append, csafe_cons37_ne _ hne]
    exact ih'
  | case5 c rest hne ih =>
    have h' : csafe rest = true := by rwa [csafe_cons_ne _ hne] at ha
    rw [List.cons_append, csafe_cons_ne _ hne]
    exact ih h'

theorem pctStrict_collapse {f : List Nat} (h : pctStrict f = true) :
    collapseDouble f = f := by
  induction f using pctStrict.induct with
  | case1 => rfl
  | case2 => rw [pctStrict_single37] at h; cases h
  | case3 rest ih =>
    have h' : pctStrict (10 :: rest) = true := by rwa [pctStrict_37nl] at h
    rw [collapseDouble_cons37_ne _ (by omega), ih h']
  | case4 c rest hne =>
    rw [pctStrict_37ne _ hne] at h
    cases h
  | case5 c rest hne ih =>
    have h' : pctStrict rest = true := by rwa [pctStrict_cons_ne _ hne] at h
    rw [collapseDouble_cons_ne _ hne, ih h']

theorem pctStrict_csafe {f : List Nat} (h : pctStrict f = true) : csafe f = true := by
  induction f using pctStrict.induct with
  | case1 => rfl
  | case2 => rw [pctStrict_single37] at h; cases h
  | case3 rest ih =>
    have h' : pctStrict (10 :: rest) = true := by rwa [pctStrict_37nl] at h
    rw [csafe_cons37_ne _ (by omega)]
    exact ih h'
  | case4 c rest hne =>
    rw [pctStrict_37ne _ hne] at h
    cases h
  | case5 c rest hne ih =>
    have h' : pctStrict rest = true := by rwa [pctStrict_cons_ne _ hne] at h
    rw [csafe_cons_ne _ hne]
    exact ih h'

theorem pctTrail_collapse {f : List Nat} (h : pctTrail f = true) :
    collapseDouble f = f := by
  induction f using pctTrail.induct with
  | case1 => rfl
  | case2 => rfl
  | case3 rest ih =>
    have h' : pctTrail (10 :: rest) = true := by rwa [pctTrail_37nl] at h
    rw [collapseDouble_cons37_ne _ (by omega), ih h']
  | case4 c rest hne =>
    rw [pctTrail_37ne _ hne] at h
    cases h
  | case5 c rest hne ih =>
    have h' : pctTrail rest = true := by rwa [pctTrail_cons_ne _ hne] at h
    rw [collapseDouble_cons_ne _ hne, ih h']

theorem pctStrict_legal {f : List Nat} (h : pctStrict f = true) : legalPcts f = true := by
  induction f using pctStrict.induct with
  | case1 => rfl
  | case2 => rw [pctStrict_single37] at h; cases h
  | case3 rest ih =>
    have h' : pctStrict (10 :: rest) = true := by rwa [pctStrict_37nl] at h
    rw [legalPcts_37nl]
    exact ih h'
  | case4 c rest hne =>
    rw [pctStrict_37ne _ hne] at h
    cases h
  | case5 c rest hne ih =>
    have h' : pctStrict rest = true := by rwa [pctStrict_cons_ne _ hne] at h
    rw [legalPcts_cons_ne _ hne]
    exact ih h'

theorem pctTrail_legal {f : List Nat} (h : pctTrail f = true) : legalPcts f = true := by
  induction f using pctTrail.induct with
  | case1 => rfl
  | case2 => exact legalPcts_single37
  | case3 rest ih =>
    have h' : pctTrail (10 :: rest) = true := by rwa [pctTrail_37nl] at h
    rw [legalPcts_37nl]
    exact ih h'
  | case4 c rest hne =>
    rw [pctTrail_37ne _ hne] at h
    cases h
  | case5 c rest hne ih =>
    have h' : pctTrail rest = true := by rwa [pctTrail_cons_ne _ hne] at h
    rw [legalPcts_cons_ne _ hne]
    exact ih h'

theorem legalPcts_append {a b : List Nat} (hs : csafe a = true) (ha : legalPcts a = true)
    (hb : legalPcts b = true) : legalPcts (a ++ b) = true := by
  induction a using csafe.induct with
  | case1 => simpa using hb
  | case2 => rw [csafe_single37] at hs; cases hs
  | case3 rest ih =>
    have hs' : csafe rest = true := by rwa [csafe_two37] at hs
    have ha' : legalPcts rest = true := by rwa [legalPcts_two37] at ha
    rw [List.cons_append, List.cons_append, legalPcts_two37]
    exact ih hs' ha'
  | case4 c rest hne ih =>
    have hs' : csafe (c :: rest) = true := by rwa [csafe_cons37_ne _ hne] at hs
    have hc10 : c = 10 := by
      by_contra hc
      rw [show legalPcts (37 :: c :: rest) = false by rw [legalPcts.eq_def]; simp [hne, hc]] at ha
      cases ha
    subst hc10
    have ha' : legalPcts (10 :: rest) = true := by rwa [legalPcts_37nl] at ha
    have ih' := ih hs' ha'
    rw [List.cons_append] at ih'
    rw [List.cons_append, List.cons_append, legalPcts_37nl]
    exact ih'
  | case5 c rest hne ih =>
    have hs' : csafe rest = true := by rwa [csafe_cons_ne _ hne] at hs
    have ha' : legalPcts rest = true := by rwa [legalPcts_cons_ne _ hne] at ha
    rw [List.cons_append, legalPcts_cons_ne _ hne]
    exact ih hs' ha'

/-! Structure of the scanner output. -/

theorem tryMatch_none {rest : List Nat} (h : tryMatch rest = none) :
    rest = [] ∨ ∃ rs, rest = 10 :: rs := by
  cases rest with
  | nil => exact Or.inl rfl
  | cons c rs =>
    by_cases hc : c = 10
    · exact Or.inr ⟨rs, by rw [hc]⟩
    · exfalso
      rw [tryMatch.eq_def] at h
      by_cases h40 : c = 40
      · cases hsp : splitAtRParen rs with
        | none => simp [hsp, hc, h40] at h
        | some pr =>
          obtain ⟨nm, rs2sub⟩ := pr
          obtain ⟨rs2, hlen⟩ := rs2sub
          cases rs2 with
          | nil => simp [hsp, hc, h40] at h
          | cons fmt rs3 =>
            by_cases hnm : nm = [] ∨ fmt = 10
            · simp [hsp, hc, h40, hnm] at h
            · simp [hsp, hc, h40, hnm] at h
      · simp [hc, h40] at h

theorem findMatches_nil : findMatches [] = ([], []) := by
  rw [findMatches.eq_def]

theorem findMatches_cons_match {rest rs : List Nat} {m : PhMatch} {hl : rs.length < rest.length}
    (htm : tryMatch rest = some (m, ⟨rs, hl⟩)) :
    findMatches (37 :: rest) = (([], m) :: (findMatches rs).1, (findMatches rs).2) := by
  rw [findMatches.eq_def]
  simp [htm]

theorem findMatches_cons_none {rest : List Nat} (htm : tryMatch rest = none) :
    findMatches (37 :: rest) = consPre 37 (findMatches rest) := by
  rw [findMatches.eq_def]
  simp [htm]

theorem findMatches_cons_ne {c : Nat} {rest : List Nat} (hne : ¬ c = 37) :
    findMatches (c :: rest) = consPre c (findMatches rest) := by
  rw [findMatches.eq_def]
  simp [hne]

theorem findMatches_nil_pairs :
    ∀ (q : List Nat), (findMatches q).1 = [] → (findMatches q).2 = q := by
  intro q
  induction q using findMatches.induct with
  | case1 => intro _; rw [findMatches_nil]
  | case2 rest m rs hl htm ih =>
    intro h
    rw [findMatches_cons_match htm] at h
    simp at h
  | case3 rest htm ih =>
    intro h
    rw [findMatches_cons_none htm] at h ⊢
    rcases hfm : findMatches rest with ⟨ps0, tr0⟩
    rw [hfm] at h
    cases ps0 with
    | nil =>
      have htr : tr0 = rest := by
        have h2 := ih (by rw [hfm])
        rw [hfm] at h2
        exact h2
      simp only [consPre]
      rw [htr]
    | cons hd ps1 =>
      obtain ⟨pre1, m1⟩ := hd
      simp [consPre] at h
  | case4 c rest hne ih =>
    intro h
    rw [findMatches_cons_ne hne] at h ⊢
    rcases hfm : findMatches rest with ⟨ps0, tr0⟩
    rw [hfm] at h
    cases ps0 with
    | nil =>
      have htr : tr0 = rest := by
        have h2 := ih (by rw [hfm])
        rw [hfm] at h2
        exact h2
      simp only [consPre]
      rw [htr]
    | cons hd ps1 =>
      obtain ⟨pre1, m1⟩ := hd
      simp [consPre] at h

theorem findMatches_first_pre :
    ∀ (q : List Nat) {pre : List Nat} {m : PhMatch} {ps : List (List Nat × PhMatch)}
      {tr : List Nat}, findMatches q = ((pre, m) :: ps, tr) → ∃ suffix, q = pre ++ 37 :: suffix := by
  intro q
  induction q using findMatches.induct with
  | case1 =>
    intro pre m ps tr h
    rw [findMatches_nil] at h
    simp at h
  | case2 rest m0 rs hl htm ih =>
    intro pre m ps tr h
    rw [findMatches_cons_match htm] at h
    simp only [Prod.mk.injEq, List.cons.injEq] at h
    obtain ⟨⟨⟨hpre, _⟩, _⟩, _⟩ := h
    exact ⟨rest, by rw [← hpre]; rfl⟩
  | case3 rest htm ih =>
    intro pre m ps tr h
    rw [findMatches_cons_none htm] at h
    rcases hfm : findMatches rest with ⟨ps0, tr0⟩
    rw [hfm] at h
    cases ps0 with
    | nil => simp [consPre] at h
    | cons hd ps1 =>
      obtain ⟨pre1, m1⟩ := hd
      simp only [consPre, Prod.mk.injEq, List.cons.injEq] at h
      obtain ⟨⟨⟨hpre, hm⟩, hps⟩, htr⟩ := h
      obtain ⟨suffix, hsuf⟩ := ih hfm
      refine ⟨suffix, ?_⟩
      rw [← hpre, hsuf]
      rfl
  | case4 c rest hne ih =>
    intro pre m ps tr h
    rw [findMatches_cons_ne hne] at h
    rcases hfm : findMatches rest with ⟨ps0, tr0⟩
    rw [hfm] at h
    cases ps0 with
    | nil => simp [consPre] at h
    | cons hd ps1 =>
      obtain ⟨pre1, m1⟩ := hd
      simp only [consPre, Prod.mk.injEq, List.cons.injEq] at h
      obtain ⟨⟨⟨hpre, hm⟩, hps⟩, htr⟩ := h
      obtain ⟨suffix, hsuf⟩ := ih hfm
      refine ⟨suffix, ?_⟩
      rw [← hpre, hsuf]
      rfl

theorem findMatches_frags :
    ∀ (q : List Nat),
      (∀ pm ∈ (findMatches q).1, pctStrict pm.1 = true) ∧
      pctTrail (findMatches q).2 = true := by
  intro q
  induction q using findMatches.induct with
  | case1 =>
    rw [findMatches_nil]
    exact ⟨by intro pm hpm; simp at hpm, rfl⟩
  | case2 rest m rs hl htm ih =>
    rw [findMatches_cons_match htm]
    refine ⟨?_, ih.2⟩
    intro pm hpm
    simp only [List.mem_cons] at hpm
    rcases hpm with rfl | hpm
    · rfl
    · exact ih.1 pm hpm
  | case3 rest htm ih =>
    rw [findMatches_cons_none htm]
    rcases hfm : findMatches rest with ⟨ps0, tr0⟩
    rw [hfm] at ih
    rcases tryMatch_none htm with hrest | ⟨rs', hrs⟩
    · subst hrest
      rw [findMatches_nil] at hfm
      obtain ⟨hps, htr⟩ : ps0 = [] ∧ tr0 = [] := by
        constructor <;> (cases hfm; rfl)
      subst hps
      subst htr
      exact ⟨by intro pm hpm; simp [consPre] at hpm, by simp [consPre, pctTrail_single37]⟩
    · cases ps0 with
      | nil =>
        have htr : tr0 = rest := by
          have h2 := findMatches_nil_pairs rest (by rw [hfm])
          rw [hfm] at h2
          exact h2
        constructor
        · intro pm hpm
          simp [consPre] at hpm
        · simp only [consPre]
          rw [htr, hrs, pctTrail_37nl]
          have h2 := ih.2
          rwa [htr, hrs] at h2
      | cons hd ps1 =>
        obtain ⟨pre1, m1⟩ := hd
        obtain ⟨suffix, hsuf⟩ := findMatches_first_pre rest hfm
        obtain ⟨pre2, hp2⟩ : ∃ pre2, pre1 = 10 :: pre2 := by
          cases pre1 with
          | nil =>
            rw [hsuf] at hrs
            simp at hrs
          | cons a pre2 =>
            rw [hsuf] at hrs
            simp only [List.cons_append, List.cons.injEq] at hrs
            exact ⟨pre2, by rw [hrs.1]⟩
        constructor
        · intro pm hpm
          simp only [consPre, List.mem_cons] at hpm
          rcases hpm with rfl | hpm
          · rw [hp2]
            simp only
            rw [pctStrict_37nl]
            have h2 := ih.1 (pre1, m1) (by simp)
            rwa [hp2] at h2
          · exact ih.1 pm (List.mem_cons_of_mem _ hpm)
        · exact ih.2
  | case4 c rest hne ih =>
    rw [findMatches_cons_ne hne]
    rcases hfm : findMatches rest with ⟨ps0, tr0⟩
    rw [hfm] at ih
    cases ps0 with
    | nil =>
      constructor
      · intro pm hpm
        simp [consPre] at hpm
      · simp only [consPre]
        rw [pctTrail_cons_ne _ hne]
        exact ih.2
    | cons hd ps1 =>
      obtain ⟨pre1, m1⟩ := hd
      constructor
      · intro pm hpm
        simp only [consPre, List.mem_cons] at hpm
        rcases hpm with rfl | hpm
        · simp only
          rw [pctStrict_cons_ne _ hne]
          exact ih.1 (pre1, m1) (by simp)
        · exact ih.1 pm (List.mem_cons_of_mem _ hpm)
      · exact ih.2

/-! Relation between the collapsing and non-collapsing scans. -/

theorem processParts_collapse_rel :
    ∀ (pairs : List (List Nat × PhMatch)) (trail : List Nat) (i : Nat) (pt : Option Bool)
      (accF accT : List Nat),
      accT = collapseDouble accF → csafe accF = true →
      (∀ pm ∈ pairs, pctStrict pm.1 = true) → pctTrail trail = true →
      processParts true pairs trail i pt accT =
        (processParts false pairs trail i pt accF).map (List.map collapsePart) := by
  intro pairs
  induction pairs with
  | nil =>
    intro trail i pt accF accT hacc hsafe _ htrail
    simp only [processParts, Except.map, List.map_cons, List.map_nil, collapsePart]
    rw [collapseDouble_append _ hsafe, pctTrail_collapse htrail, hacc]
  | cons hd rest ih =>
    obtain ⟨pre, m⟩ := hd
    intro trail i pt accF accT hacc hsafe hfrag htrail
    have hpre : pctStrict pre = true := hfrag (pre, m) (by simp)
    have hfrag' : ∀ pm ∈ rest, pctStrict pm.1 = true :=
      fun pm h => hfrag pm (List.mem_cons_of_mem _ h)
    have hcons : accT ++ pre = collapseDouble (accF ++ pre) := by
      rw [collapseDouble_append _ hsafe, hacc, pctStrict_collapse hpre]
    have hsafeP : csafe (accF ++ pre) = true := csafe_append hsafe (pctStrict_csafe hpre)
    by_cases h37 : m.ph = [37, 37]
    · have hacc2 : accT ++ pre ++ [37] = collapseDouble (accF ++ pre ++ [37, 37]) := by
        rw [collapseDouble_append _ hsafeP, ← hcons]
        rfl
      have hsafe2 : csafe (accF ++ pre ++ [37, 37]) = true :=
        csafe_append hsafeP (by rfl)
      simp only [processParts, h37, if_true]
      exact ih trail i pt (accF ++ pre ++ [37, 37]) (accT ++ pre ++ [37]) hacc2 hsafe2
        hfrag' htrail
    · by_cases h40 : m.ph = [37, 40]
      · simp [processParts, h37, h40, Except.map]
      · by_cases h32 : m.ph = [37, 32]
        · simp [processParts, h37, h40, h32, Except.map]
        · by_cases hsbt : lastByte m.ph ≠ 115 ∧ lastByte m.ph ≠ 98 ∧ lastByte m.ph ≠ 116
          · simp [processParts, h37, h40, h32, hsbt, Except.map]
          · cases hg : m.group1 with
            | none =>
              have hrec := ih trail (i + 1) (some false) [] [] rfl rfl hfrag' htrail
              cases pt with
              | none =>
                simp only [processParts, h37, h40, h32, hsbt, if_false, hg, bne_self_eq_false,
                  Bool.false_eq_true, hrec]
                cases hres : processParts false rest trail (i + 1) (some false) [] with
                | error e => simp [Except.map]
                | ok rv =>
                  simp only [Except.map, List.map_cons, collapsePart, hcons]
              | some b =>
                cases b with
                | false =>
                  simp only [processParts, h37, h40, h32, hsbt, if_false, hg, bne_self_eq_false,
                    Bool.false_eq_true, hrec]
                  cases hres : processParts false rest trail (i + 1) (some false) [] with
                  | error e => simp [Except.map]
                  | ok rv =>
                    simp only [Except.map, List.map_cons, collapsePart, hcons]
                | true =>
                  simp [processParts, h37, h40, h32, hsbt, hg, Except.map]
            | some nm =>
              have hrec := ih trail (i + 1) (some true) [] [] rfl rfl hfrag' htrail
              cases pt with
              | none =>
                simp only [processParts, h37, h40, h32, hsbt, if_false, hg, bne_self_eq_false,
                  Bool.false_eq_true, hrec]
                cases hres : processParts false rest trail (i + 1) (some true) [] with
                | error e => simp [Except.map]
                | ok rv =>
                  simp only [Except.map, List.map_cons, collapsePart, hcons]
              | some b =>
                cases b with
                | true =>
                  simp only [processParts, h37, h40, h32, hsbt, if_false, hg, bne_self_eq_false,
                    Bool.false_eq_true, hrec]
                  cases hres : processParts false rest trail (i + 1) (some true) [] with
                  | error e => simp [Except.map]
                  | ok rv =>
                    simp only [Except.map, List.map_cons, collapsePart, hcons]
                | false =>
                  simp [processParts, h37, h40, h32, hsbt, hg, Except.map]

theorem split_query_collapse_rel (q : List Nat) :
    split_query true q = (split_query false q).map (List.map collapsePart) := by
  have hfr := findMatches_frags q
  exact processParts_collapse_rel (findMatches q).1 (findMatches q).2 0 none [] [] rfl rfl
    hfr.1 hfr.2

theorem tryMatch_newline (rs : List Nat) : tryMatch (10 :: rs) = none := by
  rw [tryMatch.eq_def]
  simp

theorem findMatches_benign :
    ∀ (q : List Nat), pctTrail q = true → findMatches q = ([], q) := by
  intro q
  induction q using findMatches.induct with
  | case1 => intro _; exact findMatches_nil
  | case2 rest m rs hl htm ih =>
    intro hq
    exfalso
    cases rest with
    | nil => rw [tryMatch.eq_def] at htm; cases htm
    | cons d rs2 =>
      by_cases hd : d = 10
      · subst hd
        rw [tryMatch_newline] at htm
        cases htm
      · rw [pctTrail_37ne _ hd] at hq
        cases hq
  | case3 rest htm ih =>
    intro hq
    rw [findMatches_cons_none htm]
    cases rest with
    | nil =>
      rw [findMatches_nil]
      rfl
    | cons d rs2 =>
      by_cases hd : d = 10
      · subst hd
        rw [pctTrail_37nl] at hq
        rw [ih hq]
        rfl
      · rw [pctTrail_37ne _ hd] at hq
        cases hq
  | case4 c rest hne ih =>
    intro hq
    rw [pctTrail_cons_ne _ hne] at hq
    rw [findMatches_cons_ne hne, ih hq]
    rfl

theorem split_query_benign {q : List Nat} (c : Bool) (hq : pctTrail q = true) :
    split_query c q = .ok [⟨q, .pos 0, .AUTO⟩] := by
  rw [split_query_eq, findMatches_benign q hq]
  rfl

theorem processParts_false_legal :
    ∀ (pairs : List (List Nat × PhMatch)) (trail : List Nat) (i : Nat) (pt : Option Bool)
      (accF : List Nat),
      (∀ pm ∈ pairs, pctStrict pm.1 = true) → pctTrail trail = true →
      csafe accF = true → legalPcts accF = true →
      ∀ rv, processParts false pairs trail i pt accF = .ok rv →
      ∀ p ∈ rv, legalPcts p.pre = true := by
  intro pairs
  induction pairs with
  | nil =>
    intro trail i pt accF _ htrail hsafe hlegal rv h p hp
    simp only [processParts] at h
    cases h
    simp only [List.mem_singleton] at hp
    subst hp
    exact legalPcts_append hsafe hlegal (pctTrail_legal htrail)
  | cons hd rest ih =>
    obtain ⟨pre, m⟩ := hd
    intro trail i pt accF hfrag htrail hsafe hlegal rv h p hp
    have hpre : pctStrict pre = true := hfrag (pre, m) (by simp)
    have hfrag' : ∀ pm ∈ rest, pctStrict pm.1 = true :=
      fun pm hm => hfrag pm (List.mem_cons_of_mem _ hm)
    have hsafeP : csafe (accF ++ pre) = true := csafe_append hsafe (pctStrict_csafe hpre)
    have hlegalP : legalPcts (accF ++ pre) = true :=
      legalPcts_append hsafe hlegal (pctStrict_legal hpre)
    by_cases h37 : m.ph = [37, 37]
    · simp only [processParts, h37, if_true] at h
      have hsafe2 : csafe (accF ++ pre ++ [37, 37]) = true :=
        csafe_append hsafeP (by rfl)
      have hlegal2 : legalPcts (accF ++ pre ++ [37, 37]) = true :=
        legalPcts_append hsafeP hlegalP (by rfl)
      exact ih trail i pt _ hfrag' htrail hsafe2 hlegal2 rv h p hp
    · by_cases h40 : m.ph = [37, 40]
      · simp [processParts, h37, h40] at h
      · by_cases h32 : m.ph = [37, 32]
        · simp [processParts, h37, h40, h32] at h
        · by_cases hsbt : lastByte m.ph ≠ 115 ∧ lastByte m.ph ≠ 98 ∧ lastByte m.ph ≠ 116
          · simp [processParts, h37, h40, h32, hsbt] at h
          · simp only [processParts, h37, h40, h32, hsbt, if_false] at h
            cases hcond : (match pt with
              | some b => b != (match m.group1 with | some _ => true | none => false)
              | none => false) with
            | true =>
              rw [hcond] at h
              simp at h
            | false =>
              rw [hcond] at h
              simp only [Bool.false_eq_true, if_false] at h
              obtain ⟨rv', hrec, hout⟩ := exceptMap_ok h
              subst hout
              simp only [List.mem_cons] at hp
              rcases hp with rfl | hp
              · exact hlegalP
              · exact ih trail (i + 1) _ [] hfrag' htrail rfl rfl rv' hrec p hp

/-! Facts about head items, mapped parts, and the caches. -/

theorem head_int_of_not_str {parts : List QueryPart} (hne : parts ≠ [])
    (h : headItemIsStr parts = false) : headItemIsInt parts = true := by
  cases parts with
  | nil => exact absurd rfl hne
  | cons p rest =>
    cases hp : p.item with
    | pos j => simp [headItemIsInt, hp]
    | name nm => simp [headItemIsStr, hp] at h

theorem head_int_false_of_str {parts : List QueryPart} (h : headItemIsStr parts = true) :
    headItemIsInt parts = false := by
  cases parts with
  | nil => simp [headItemIsStr] at h
  | cons p rest =>
    cases hp : p.item with
    | pos j => simp [headItemIsStr, hp] at h
    | name nm => simp [headItemIsInt, hp]

theorem headStr_map_collapse (l : List QueryPart) :
    headItemIsStr (l.map collapsePart) = headItemIsStr l := by
  cases l with
  | nil => rfl
  | cons p rest => cases hp : p.item <;> simp [headItemIsStr, collapsePart, hp]

theorem namesOf_map_collapse (l : List QueryPart) :
    namesOf (l.map collapsePart) = namesOf l := by
  induction l with
  | nil => rfl
  | cons p rest ih =>
    cases hp : p.item <;> simp [namesOf, collapsePart, hp, ih]

theorem dropLast_map {α β : Type} (f : α → β) (l : List α) :
    (l.map f).dropLast = l.dropLast.map f := by
  induction l with
  | nil => rfl
  | cons a rest ih =>
    cases rest with
    | nil => rfl
    | cons b rest2 =>
      simp only [List.map_cons] at ih ⊢
      rw [dropLast_cons_ne _ (List.cons_ne_nil (f b) _),
        dropLast_cons_ne _ (List.cons_ne_nil b _), List.map_cons, ih]

theorem lookupKV_mem_key {α : Type} {kvs : List (List Nat × α)} {nm : List Nat} {v : α}
    (h : lookupKV kvs nm = some v) : (nm, v) ∈ kvs := by
  induction kvs with
  | nil => simp [lookupKV] at h
  | cons hd rest ih =>
    obtain ⟨k, v0⟩ := hd
    by_cases hk : k = nm
    · simp only [lookupKV, hk, if_true] at h
      cases h
      simp [hk]
    · simp only [lookupKV, hk, if_false] at h
      exact List.mem_cons_of_mem _ (ih h)

theorem query2pg_cached_spec (cache : List (List Nat × Except QueryError PgQuery))
    (q : List Nat) (h : goodServerCache cache) :
    (query2pg_cached cache q).1 = query2pg_nocache q ∧
    goodServerCache (query2pg_cached cache q).2 := by
  unfold query2pg_cached
  cases hlk : lookupKV cache q with
  | some r =>
    have hm := lookupKV_mem_key hlk
    exact ⟨h (q, r) hm, h⟩
  | none =>
    refine ⟨rfl, ?_⟩
    cases hres : query2pg_nocache q with
    | ok v =>
      intro e he
      simp only [hres] at he
      rcases List.mem_cons.mp he with rfl | he
      · exact hres.symm
      · exact h e he
    | error err =>
      intro e he
      simp only [hres] at he
      exact h e he

theorem query2pg_client_cached_spec (cache : List (List Nat × Except QueryError PgClientQuery))
    (q : List Nat) (h : goodClientCache cache) :
    (query2pg_client_cached cache q).1 = query2pg_client_nocache q ∧
    goodClientCache (query2pg_client_cached cache q).2 := by
  unfold query2pg_client_cached
  cases hlk : lookupKV cache q with
  | some r =>
    have hm := lookupKV_mem_key hlk
    exact ⟨h (q, r) hm, h⟩
  | none =>
    refine ⟨rfl, ?_⟩
    cases hres : query2pg_client_nocache q with
    | ok v =>
      intro e he
      simp only [hres] at he
      rcases List.mem_cons.mp he with rfl | he
      · exact hres.symm
      · exact h e he
    | error err =>
      intro e he
      simp only [hres] at he
      exact h e he

/-! The claims. -/

/-- C1: for a query containing only positional placeholders, the server-bind
rewritten query replaces the Nth placeholder occurrence (1-based, left to
right) with the marker `$N`, the format list has one entry per placeholder in
occurrence order, and the scanner assigns the 0-based item index by counting
only real placeholders, so interleaved `%%` escapes do not shift the
numbering. -/
theorem c1_positional_markers (q : List Nat) (parts : List QueryPart)
    (hs : split_query true q = .ok parts) (hp : headItemIsInt parts = true) :
    query2pg_nocache q =
      .ok ⟨assembleMarkers parts, parts.dropLast.map (fun p => p.format), none, parts⟩ ∧
    (parts.dropLast.map (fun p => p.format)).length = parts.length - 1 ∧
    posSeq 0 parts.dropLast = true := by
  refine ⟨query2pg_positional hs hp, ?_, split_query_posSeq hs hp⟩
  simp [List.length_map, List.length_dropLast]

/-- Witness for C1 at the query `a%%b%sc%sd`: the `%%` escape does not shift
the numbering, markers are `$1`, `$2` and the output reads `a%b$1c$2d`. -/
theorem c1_witness :
    query2pg_nocache [97, 37, 37, 98, 37, 115, 99, 37, 115, 100] =
      .ok ⟨[97, 37, 98, 36, 49, 99, 36, 50, 100], [.AUTO, .AUTO], none,
        [⟨[97, 37, 98], .pos 0, .AUTO⟩, ⟨[99], .pos 1, .AUTO⟩, ⟨[100], .pos 0, .AUTO⟩]⟩ := by
  have hs : split_query true [97, 37, 37, 98, 37, 115, 99, 37, 115, 100] =
      .ok [⟨[97, 37, 98], .pos 0, .AUTO⟩, ⟨[99], .pos 1, .AUTO⟩, ⟨[100], .pos 0, .AUTO⟩] := by
    simp [split_query, findMatches, tryMatch, consPre, processParts, lastByte, ph_to_fmt,
      Except.map]
  have h := (c1_positional_markers _ _ hs rfl).1
  rw [h]
  rfl

/-- C6 counterexample: with a positional query and an EMPTY mapping, the
validator does not fail; it returns the empty sequence (the code only raises
when the mapping is nonempty, because an empty dict is falsy). -/
theorem c6_counterexample :
    validate_and_reorder_params [⟨[], .pos 0, .AUTO⟩, ⟨[], .pos 0, .AUTO⟩]
      (Params.map ([] : List (List Nat × Nat))) none = .ok [] := rfl

/-- C6 (amended): for a query with positional placeholders, supplying a
NONEMPTY mapping makes validation fail with the positional-placeholders-
require-a-sequence error. -/
theorem c6_nonempty_mapping {α : Type} (parts : List QueryPart)
    (kv0 : List Nat × α) (kvs : List (List Nat × α)) (order : Option (List (List Nat)))
    (hlen : parts.length > 1) (hpos : headItemIsStr parts = false) :
    validate_and_reorder_params parts (Params.map (kv0 :: kvs)) order
      = .error .positionalRequireSequence := by
  simp [validate_and_reorder_params, hlen, hpos, List.isEmpty]

/-- Witness for C6 (amended): scenario C at the validator level. -/
theorem c6_witness :
    validate_and_reorder_params [⟨[], .pos 0, .AUTO⟩, ⟨[], .pos 0, .AUTO⟩]
      (Params.map [([120], (1 : Nat))]) none = .error .positionalRequireSequence :=
  c6_nonempty_mapping _ _ _ _ (by simp) rfl

/-- C7: for ordered-sequence parameters, validation fails with a
count-mismatch error naming both numbers whenever the sequence length differs
from `len(parts) - 1`; when the length matches but the query is named and the
sequence nonempty it fails with the named-require-mapping error; otherwise
the sequence is returned as given. -/
theorem c7_sequence_validation {α : Type} (parts : List QueryPart) (vs : List α)
    (order : Option (List (List Nat))) :
    ((vs.length : Int) ≠ (parts.length : Int) - 1 →
      validate_and_reorder_params parts (Params.seq vs) order
        = .error (.countMismatch ((parts.length : Int) - 1) vs.length)) ∧
    ((vs.length : Int) = (parts.length : Int) - 1 → vs ≠ [] → headItemIsStr parts = true →
      validate_and_reorder_params parts (Params.seq vs) order = .error .namedRequireMapping) ∧
    ((vs.length : Int) = (parts.length : Int) - 1 → (vs = [] ∨ headItemIsStr parts = false) →
      validate_and_reorder_params parts (Params.seq vs) order = .ok vs) := by
  refine ⟨?_, ?_, ?_⟩
  · intro hlen
    simp [validate_and_reorder_params, hlen]
  · intro hlen hne hstr
    have hemp : vs.isEmpty = false := by
      cases vs with
      | nil => exact absurd rfl hne
      | cons v vs' => rfl
    simp [validate_and_reorder_params, hlen, hemp, head_int_false_of_str hstr]
  · intro hlen hcase
    have hcond : ¬ ((vs.length : Int) ≠ (parts.length : Int) - 1) := not_not_intro hlen
    rcases hcase with rfl | hstr
    · simp only [validate_and_reorder_params, hcond, if_false]
      simp
    · have hne : parts ≠ [] := by
        intro hc
        subst hc
        simp at hlen
      simp only [validate_and_reorder_params, hcond, if_false,
        head_int_of_not_str hne hstr]
      simp

/-- Witness for C7: a matching one-element sequence on a one-placeholder
positional query is returned as given. -/
theorem c7_witness :
    validate_and_reorder_params [⟨[], .pos 0, .AUTO⟩, ⟨[], .pos 0, .AUTO⟩]
      (Params.seq [(5 : Nat)]) none = .ok [5] :=
  (c7_sequence_validation _ _ _).2.2 (by decide) (Or.inr rfl)

/-- C8: for a named query and a mapping, the validator builds the aligned
sequence by looking up each name-order entry; if any name is missing, it
fails with one missing-parameter error listing every missing name, sorted. -/
theorem c8_mapping_lookup {α : Type} (parts : List QueryPart) (kvs : List (List Nat × α))
    (ord : List (List Nat)) (hp : headItemIsStr parts = true) :
    ((ord.filter fun nm => (lookupKV kvs nm).isNone) = [] →
      validate_and_reorder_params parts (Params.map kvs) (some ord)
        = .ok (ord.filterMap (lookupKV kvs))) ∧
    ((ord.filter fun nm => (lookupKV kvs nm).isNone) ≠ [] →
      validate_and_reorder_params parts (Params.map kvs) (some ord)
        = .error (.missingParams (sortNames (ord.filter fun nm => (lookupKV kvs nm).isNone)))) := by
  have hnostr : ¬ (kvs.isEmpty = false ∧ parts.length > 1 ∧ headItemIsStr parts = false) := by
    intro hc
    rw [hp] at hc
    simp at hc
  constructor
  · intro hmiss
    cases ord with
    | nil =>
      simp only [validate_and_reorder_params, if_neg hnostr]
      rfl
    | cons o os =>
      simp only [validate_and_reorder_params, if_neg hnostr]
      rw [if_pos hmiss]
  · intro hmiss
    cases ord with
    | nil => simp at hmiss
    | cons o os =>
      simp only [validate_and_reorder_params, if_neg hnostr]
      rw [if_neg hmiss]

/-- Witness for C8: scenario D, query `SELECT %(a)s` with an empty mapping
fails with a missing-parameter error naming `a`. -/
theorem c8_witness :
    validate_and_reorder_params
      [⟨[83, 69, 76, 69, 67, 84, 32], .name [97], .AUTO⟩, ⟨[], .pos 0, .AUTO⟩]
      (Params.map ([] : List (List Nat × Nat))) (some [[97]])
      = .error (.missingParams [[97]]) := by
  have h := (c8_mapping_lookup
    [⟨[83, 69, 76, 69, 67, 84, 32], .name [97], .AUTO⟩, ⟨[], .pos 0, .AUTO⟩]
    ([] : List (List Nat × Nat)) [[97]] rfl).2 (by simp [lookupKV])
  simpa [lookupKV, sortNames, insertName] using h

/-- C9: conversion with parameters takes the cached path exactly under the
4096-byte / 50-parameter thresholds; given coherent caches the result always
equals a fresh parse (the cache memoizes the same underlying function),
coherence is preserved, the server-bind and client-bind conversions touch
only their own cache, and over-threshold calls leave the caches untouched. -/
theorem c9_cache_behavior :
    (∀ (α β : Type) (tx : Transformer α β) (cs : Caches) (bq : List Nat) (vs : Params α),
      goodCaches cs →
      (PostgresQuery_convert tx cs bq (some vs)).1 = dumpServer tx (query2pg_nocache bq) vs ∧
      goodCaches (PostgresQuery_convert tx cs bq (some vs)).2 ∧
      (PostgresQuery_convert tx cs bq (some vs)).2.client = cs.client ∧
      (¬(bq.length ≤ MAX_CACHED_STATEMENT_LENGTH ∧ paramsLen vs ≤ MAX_CACHED_STATEMENT_PARAMS) →
        (PostgresQuery_convert tx cs bq (some vs)).2 = cs)) ∧
    (∀ (γ : Type) (tx : ClientTransformer γ) (cs : Caches) (bq : List Nat)
      (vs : Params (Option γ)),
      goodCaches cs →
      (PostgresClientQuery_convert tx cs bq (some vs)).1
        = dumpClient tx (query2pg_client_nocache bq) vs ∧
      goodCaches (PostgresClientQuery_convert tx cs bq (some vs)).2 ∧
      (PostgresClientQuery_convert tx cs bq (some vs)).2.server = cs.server ∧
      (¬(bq.length ≤ MAX_CACHED_STATEMENT_LENGTH ∧ paramsLen vs ≤ MAX_CACHED_STATEMENT_PARAMS) →
        (PostgresClientQuery_convert tx cs bq (some vs)).2 = cs)) := by
  constructor
  · intro α β tx cs bq vs hgood
    obtain ⟨hsrv, hcli⟩ := hgood
    by_cases hcc : bq.length ≤ MAX_CACHED_STATEMENT_LENGTH ∧
        paramsLen vs ≤ MAX_CACHED_STATEMENT_PARAMS
    · obtain ⟨h1, h2⟩ := query2pg_cached_spec cs.server bq hsrv
      simp only [PostgresQuery_convert]
      rw [if_pos hcc]
      exact ⟨by rw [h1], ⟨h2, hcli⟩, rfl, fun hn => absurd hcc hn⟩
    · simp only [PostgresQuery_convert]
      rw [if_neg hcc]
      exact ⟨rfl, ⟨hsrv, hcli⟩, rfl, fun _ => rfl⟩
  · intro γ tx cs bq vs hgood
    obtain ⟨hsrv, hcli⟩ := hgood
    by_cases hcc : bq.length ≤ MAX_CACHED_STATEMENT_LENGTH ∧
        paramsLen vs ≤ MAX_CACHED_STATEMENT_PARAMS
    · obtain ⟨h1, h2⟩ := query2pg_client_cached_spec cs.client bq hcli
      simp only [PostgresClientQuery_convert]
      rw [if_pos hcc]
      exact ⟨by rw [h1], ⟨hsrv, h2⟩, rfl, fun hn => absurd hcc hn⟩
    · simp only [PostgresClientQuery_convert]
      rw [if_neg hcc]
      exact ⟨rfl, ⟨hsrv, hcli⟩, rfl, fun _ => rfl⟩

/-- Witness for C9: a cacheable server-bind conversion leaves the client
cache untouched. -/
theorem c9_witness :
    (PostgresQuery_convert (⟨fun _ _ => [], none, none⟩ : Transformer Nat Nat)
      ⟨[], []⟩ [37, 115] (some (Params.seq [0]))).2.client = [] :=
  (c9_cache_behavior.1 Nat Nat ⟨fun _ _ => [], none, none⟩ ⟨[], []⟩ [37, 115]
    (Params.seq [0])
    ⟨fun e he => absurd he (List.not_mem_nil e), fun e he => absurd he (List.not_mem_nil e)⟩).2.2.1

/-- C10: converting with null parameters performs no placeholder scanning or
validation: the raw query bytes (even with malformed `%` sequences) pass
through unchanged as the final query, and afterwards `params` is null,
`types` is the empty tuple and `formats` is null, for both the server-bind
and client-bind classes; the caches are untouched. -/
theorem c10_null_vars :
    (∀ (α β : Type) (tx : Transformer α β) (cs : Caches) (bquery : List Nat),
      PostgresQuery_convert tx cs bquery none = (.ok ⟨bquery, none, [], none⟩, cs)) ∧
    (∀ (γ : Type) (tx : ClientTransformer γ) (cs : Caches) (bquery : List Nat),
      PostgresClientQuery_convert tx cs bquery none = (.ok ⟨bquery, none, none, [], none⟩, cs)) :=
  ⟨fun _ _ _ _ _ => rfl, fun _ _ _ _ => rfl⟩

/-- C2: for a named-placeholder query under server-bind, conversion succeeds
exactly when every later occurrence of a name carries the same format as its
first occurrence; a conflicting later format makes conversion fail with the
conflicting-format error; on success each occurrence is rewritten to the
marker allocated at the first occurrence of its name (the `k+1`-st marker
for the `k`-th distinct name); and the client-bind assembler never raises
the conflicting-format error. -/
theorem c2_conflicting_format (q : List Nat) (parts : List QueryPart)
    (hs : split_query true q = .ok parts) (hp : headItemIsStr parts = true) :
    ((∃ r, query2pg_nocache q = .ok r) ↔ fmtConsistentCtx [] parts.dropLast = true) ∧
    (fmtConsistentCtx [] parts.dropLast = false →
      ∃ nm, query2pg_nocache q = .error (.conflictingFormat nm)) ∧
    (∀ r, query2pg_nocache q = .ok r →
      r.query = namedJoin ((firstOcc [] parts.dropLast).map Prod.fst) parts.dropLast
        ++ lastPre parts) ∧
    (∀ (q2 nm : List Nat), query2pg_client_nocache q2 ≠ .error (.conflictingFormat nm)) := by
  obtain ⟨hok, herr⟩ := query2pg_named hs hp
  refine ⟨⟨?_, ?_⟩, herr, ?_, fun q2 nm => query2pg_client_no_conflict q2 nm⟩
  · rintro ⟨r, hr⟩
    cases hcons : fmtConsistentCtx [] parts.dropLast with
    | true => rfl
    | false =>
      obtain ⟨nm, hnm⟩ := herr hcons
      rw [hr] at hnm
      cases hnm
  · intro hcons
    exact ⟨_, hok hcons⟩
  · intro r hr
    cases hcons : fmtConsistentCtx [] parts.dropLast with
    | false =>
      obtain ⟨nm, hnm⟩ := herr hcons
      rw [hr] at hnm
      cases hnm
    | true =>
      have h2 := hok hcons
      rw [hr] at h2
      cases h2
      rfl

/-- Witness for C2 at the query `%(a)s`: in particular the client-bind
assembler does not raise a conflicting-format error there. -/
theorem c2_witness :
    query2pg_client_nocache [37, 40, 97, 41, 115] ≠ .error (.conflictingFormat [97]) := by
  have hs : split_query true [37, 40, 97, 41, 115]
      = .ok [⟨[], .name [97], .AUTO⟩, ⟨[], .pos 0, .AUTO⟩] := by
    simp [split_query, findMatches, tryMatch, splitAtRParen, consPre, processParts,
      lastByte, ph_to_fmt, Except.map]
  exact (c2_conflicting_format [37, 40, 97, 41, 115] _ hs rfl).2.2.2 [37, 40, 97, 41, 115] [97]

/-- C3: for a named query, the client-bind assembler rewrites every
placeholder occurrence to the generic `%s` marker and its name-order list
has one entry per occurrence, repeats included; the server-bind name-order
list is the first-occurrence deduplication of that occurrence list, and the
format list has exactly one entry per distinct name. -/
theorem c3_name_order (q : List Nat) (parts parts2 : List QueryPart)
    (hs : split_query true q = .ok parts) (hs2 : split_query false q = .ok parts2)
    (hp : headItemIsStr parts = true) :
    query2pg_client_nocache q = .ok
      ⟨clientJoinNamed parts2.dropLast ++ lastPre parts2,
        some (namesOf parts2.dropLast), parts2⟩ ∧
    namesOf parts.dropLast = namesOf parts2.dropLast ∧
    (∀ r, query2pg_nocache q = .ok r →
      r.order = some (dedupAvoid [] (namesOf parts.dropLast)) ∧
      r.formats = (firstOcc [] parts.dropLast).map Prod.snd ∧
      r.formats.length = (dedupAvoid [] (namesOf parts.dropLast)).length) := by
  have hrel := split_query_collapse_rel q
  rw [hs, hs2] at hrel
  simp only [Except.map] at hrel
  have hmap : parts = parts2.map collapsePart := by
    cases hrel
    rfl
  have hp2 : headItemIsStr parts2 = true := by
    rw [hmap, headStr_map_collapse] at hp
    exact hp
  have hnames : namesOf parts.dropLast = namesOf parts2.dropLast := by
    rw [hmap, dropLast_map, namesOf_map_collapse]
  refine ⟨query2pg_client_named hs2 hp2, hnames, ?_⟩
  intro r hr
  obtain ⟨hok, herr⟩ := query2pg_named hs hp
  cases hcons : fmtConsistentCtx [] parts.dropLast with
  | false =>
    obtain ⟨nm, hnm⟩ := herr hcons
    rw [hr] at hnm
    cases hnm
  | true =>
    have h2 := hok hcons
    rw [hr] at h2
    cases h2
    refine ⟨?_, rfl, ?_⟩
    · simp only
      rw [firstOcc_fst_dedup]
    · simp only
      rw [List.length_map, ← firstOcc_fst_dedup, List.length_map]

/-- Witness for C3 at the query `%(a)s%(a)s%(b)t` (scenario B shape): the
client template is `%s%s%s` with name order `[a, a, b]`. -/
theorem c3_witness :
    query2pg_client_nocache
        [37, 40, 97, 41, 115, 37, 40, 97, 41, 115, 37, 40, 98, 41, 116]
      = .ok ⟨[37, 115, 37, 115, 37, 115], some [[97], [97], [98]],
          [⟨[], .name [97], .AUTO⟩, ⟨[], .name [97], .AUTO⟩, ⟨[], .name [98], .TEXT⟩,
            ⟨[], .pos 0, .AUTO⟩]⟩ := by
  have hs : split_query true [37, 40, 97, 41, 115, 37, 40, 97, 41, 115, 37, 40, 98, 41, 116]
      = .ok [⟨[], .name [97], .AUTO⟩, ⟨[], .name [97], .AUTO⟩, ⟨[], .name [98], .TEXT⟩,
          ⟨[], .pos 0, .AUTO⟩] := by
    simp [split_query, findMatches, tryMatch, splitAtRParen, consPre, processParts,
      lastByte, ph_to_fmt, Except.map]
  have hs2 : split_query false [37, 40, 97, 41, 115, 37, 40, 97, 41, 115, 37, 40, 98, 41, 116]
      = .ok [⟨[], .name [97], .AUTO⟩, ⟨[], .name [97], .AUTO⟩, ⟨[], .name [98], .TEXT⟩,
          ⟨[], .pos 0, .AUTO⟩] := by
    simp [split_query, findMatches, tryMatch, splitAtRParen, consPre, processParts,
      lastByte, ph_to_fmt, Except.map]
  have h := (c3_name_order _ _ _ hs hs2 rfl).1
  rw [h]
  rfl

/-- C4: every `%%` is collapsed to a single `%` merged into the surrounding
prefix by the server-bind (collapsing) scan, while the client-bind
(non-collapsing) scan keeps the two bytes: the collapsing scan equals the
non-collapsing scan with every part prefix `%%`-collapsed.  In particular
for the query `100%% done: %s` the server-bind rewritten bytes read
`100% done: $1` while the client template keeps `100%% done: %s`. -/
theorem c4_percent_collapse :
    (∀ q : List Nat,
      split_query true q = (split_query false q).map (List.map collapsePart)) ∧
    (query2pg_nocache [49, 48, 48, 37, 37, 32, 100, 111, 110, 101, 58, 32, 37, 115]).map
        (fun r => r.query)
      = .ok [49, 48, 48, 37, 32, 100, 111, 110, 101, 58, 32, 36, 49] ∧
    (query2pg_client_nocache [49, 48, 48, 37, 37, 32, 100, 111, 110, 101, 58, 32, 37, 115]).map
        (fun r => r.template)
      = .ok [49, 48, 48, 37, 37, 32, 100, 111, 110, 101, 58, 32, 37, 115] := by
  refine ⟨split_query_collapse_rel, ?_, ?_⟩
  · have hsp : split_query true [49, 48, 48, 37, 37, 32, 100, 111, 110, 101, 58, 32, 37, 115]
        = .ok [⟨[49, 48, 48, 37, 32, 100, 111, 110, 101, 58, 32], .pos 0, .AUTO⟩,
            ⟨[], .pos 0, .AUTO⟩] := by
      simp [split_query, findMatches, tryMatch, consPre, processParts, lastByte,
        ph_to_fmt, Except.map]
    simp only [query2pg_nocache, hsp]
    rfl
  · have hsp : split_query false [49, 48, 48, 37, 37, 32, 100, 111, 110, 101, 58, 32, 37, 115]
        = .ok [⟨[49, 48, 48, 37, 37, 32, 100, 111, 110, 101, 58, 32], .pos 0, .AUTO⟩,
            ⟨[], .pos 0, .AUTO⟩] := by
      simp [split_query, findMatches, tryMatch, consPre, processParts, lastByte,
        ph_to_fmt, Except.map]
    simp only [query2pg_client_nocache, hsp]
    rfl

/-- C5 counterexample: a `%` followed by a newline begins none of the legal
placeholder forms, yet the scanner does not fail: Python's `.` does not
match a newline, so no match starts at that `%` and the bytes pass through
into the output untouched (and server-bind conversion succeeds). -/
theorem c5_counterexample :
    split_query true [97, 37, 10, 98] = .ok [⟨[97, 37, 10, 98], .pos 0, .AUTO⟩] ∧
    query2pg_nocache [97, 37, 10, 98]
      = .ok ⟨[97, 37, 10, 98], [], none, [⟨[97, 37, 10, 98], .pos 0, .AUTO⟩]⟩ := by
  have hs : split_query true [97, 37, 10, 98] = .ok [⟨[97, 37, 10, 98], .pos 0, .AUTO⟩] := by
    simp [split_query, findMatches, tryMatch, consPre, processParts, Except.map]
  refine ⟨hs, ?_⟩
  simp only [query2pg_nocache, hs]
  rfl

/-- C5 (amended): a `%` that the scanner matches (one followed by a byte
other than a newline) and that begins no legal form fails as the claim
states: unterminated `%(` gives the incomplete-placeholder error, `% ` the
doubling hint, any other matched trailing byte the unsupported-placeholder
error; however a `%` at end of input or followed by a newline is never
matched: it passes through literally, so the `%` shapes reaching an output
prefix of the non-collapsing scan are exactly `%%` pairs, `%` before a
newline, and a final `%`. -/
theorem c5_unmatched_percent :
    (∀ (q : List Nat) (parts : List QueryPart), split_query false q = .ok parts →
      ∀ p ∈ parts, legalPcts p.pre = true) ∧
    (∀ (c : Bool) (q : List Nat), pctTrail q = true →
      split_query c q = .ok [⟨q, .pos 0, .AUTO⟩]) ∧
    split_query true [37, 40, 120] = .error .incompletePlaceholder ∧
    split_query true [37, 32, 97] = .error .percentSpace ∧
    split_query true [37, 100] = .error (.unsupportedPlaceholder [37, 100]) := by
  refine ⟨?_, ?_, ?_, ?_, ?_⟩
  · intro q parts h p hp
    have hfr := findMatches_frags q
    exact processParts_false_legal (findMatches q).1 (findMatches q).2 0 none []
      hfr.1 hfr.2 rfl rfl parts h p hp
  · intro c q hq
    exact split_query_benign c hq
  · simp [split_query, findMatches, tryMatch, splitAtRParen, consPre, processParts]
  · simp [split_query, findMatches, tryMatch, consPre, processParts]
  · simp [split_query, findMatches, tryMatch, consPre, processParts, lastByte]

/-- Witness for C5 (amended): the prefix the non-collapsing scan produces for
`a%%b` keeps its `%%` pair and is accepted as legal; and a trailing `%`
passes through whole. -/
theorem c5_witness :
    legalPcts [97, 37, 37, 98] = true ∧
    split_query true [97, 37] = .ok [⟨[97, 37], .pos 0, .AUTO⟩] := by
  constructor
  · have hs : split_query false [97, 37, 37, 98] = .ok [⟨[97, 37, 37, 98], .pos 0, .AUTO⟩] := by
      simp [split_query, findMatches, tryMatch, consPre, processParts, Except.map]
    exact c5_unmatched_percent.1 [97, 37, 37, 98] [⟨[97, 37, 37, 98], .pos 0, .AUTO⟩] hs
      ⟨[97, 37, 37, 98], .pos 0, .AUTO⟩ (by simp)
  · exact c5_unmatched_percent.2.1 true [97, 37] rfl

end Psycopg
